
import Mathlib

set_option autoImplicit false

/-
Shallow embedding of `src/cache.ts` (lnear-dev/cache): two bounded key-value
caches, `LRUCache` and `LFUCache`, with lazy TTL expiry and an eviction hook.

Modelling conventions:
- JavaScript `Map` is modelled as an insertion-ordered association list
  `List (K × A)`: `set` of a present key updates the pair in place, `set` of
  an absent key appends, iteration follows the list.
- JavaScript `Set` (the LFU frequency buckets) is an insertion-ordered
  duplicate-free `List K`.
- `Date.now()` is an explicit `now : Nat` argument on every operation that
  reads the clock.
- JavaScript numbers used for sizes are modelled as `Int` (`size--` really
  decrements), `maxAge`/expiry values as `Option Nat` where `none` stands
  for `Number.POSITIVE_INFINITY` (no expiry).
- The LRU doubly-linked node list is modelled with an arena: nodes live in
  `nodes : List (Nat × LRUNodeData K V)` keyed by an allocation id, the key
  index maps keys to ids, and the linked-list order (head first) is the id
  sequence `order`.  Pointer surgery on a well-formed doubly linked list is
  the corresponding sequence operation.
- `Maybe.ToChecked`/`FromJust` on a `Nothing` throw in `perhaps-ts`; the one
  code path that can do this (`LRUCache.set`'s eviction branch) is therefore
  `Option`-valued, `none` meaning the call threw.
- The `onEviction` callback is modelled by a flag `onEv` (whether a callback
  was supplied) and an event log `evLog` recording the `(key, value)` pairs
  it was invoked with, in call order.
-/

namespace CacheSpec

/-- Models `Number.MAX_SAFE_INTEGER`, the default used by
`item.expiry.FromMaybe(Number.MAX_SAFE_INTEGER) <= Date.now()`. -/
def maxSafeInteger : Nat := 9007199254740991

/-- The expiry test from `deleteIfExpired`:
`item.expiry.FromMaybe(MAX_SAFE_INTEGER) <= Date.now()`. -/
def isExpired (now : Nat) (e : Option Nat) : Bool :=
  e.getD maxSafeInteger ≤ now

/-- The expiry computed by `set`:
`maxAge !== Infinity ? Just(Date.now() + maxAge) : Nothing()`. -/
def mkExpiry (now : Nat) (eff : Option Nat) : Option Nat :=
  eff.map (fun m => now + m)

/-- The constructor's `options.maxAge || Number.POSITIVE_INFINITY`: an absent
or zero `maxAge` option is falsy and replaced by infinity (`none`). -/
def effMaxAge : Option Nat → Option Nat
  | some (n + 1) => some (n + 1)
  | _ => none

section AList

variable {K : Type} [DecidableEq K] {A : Type}

/-- Models `Map.get`: the value of the first (only) pair with the given key. -/
def alGet (k : K) : List (K × A) → Option A
  | [] => none
  | p :: rest => if p.1 = k then some p.2 else alGet k rest

/-- Models `Map.set`: replace in place if the key is present, append otherwise. -/
def alPut (k : K) (a : A) : List (K × A) → List (K × A)
  | [] => [(k, a)]
  | p :: rest => if p.1 = k then (k, a) :: rest else p :: alPut k a rest

/-- Models `Map.delete`: drop the (first) pair with the given key. -/
def alRemove (k : K) : List (K × A) → List (K × A)
  | [] => []
  | p :: rest => if p.1 = k then rest else p :: alRemove k rest

/-- Apply `f` to the value stored at `k`, when present (`map.get(k)?.mutate`). -/
def alAdjust (k : K) (f : A → A) : List (K × A) → List (K × A)
  | [] => []
  | p :: rest => if p.1 = k then (k, f p.2) :: rest else p :: alAdjust k f rest

/-- Models `Set.delete`: remove the first occurrence of an element. -/
def remFirst (k : K) : List K → List K
  | [] => []
  | x :: rest => if x = k then rest else x :: remFirst k rest

/-- Models `Set.add`: append if not already present. -/
def addLast (k : K) (l : List K) : List K :=
  if k ∈ l then l else l ++ [k]

end AList

/-! ## LRU cache (`class LRUCache`) -/

/-- The data fields of an `LRUNode` (the `prev`/`next` links are represented
by the position of the node's id in `LRUState.order`). -/
structure LRUNodeData (K V : Type) where
  key : K
  value : V
  expiry : Option Nat
deriving DecidableEq, Repr

/-- The state of an `LRUCache` instance. -/
structure LRUState (K V : Type) where
  capacity : Int
  nodes : List (Nat × LRUNodeData K V)
  cache : List (K × Nat)
  order : List Nat
  nextId : Nat
  size : Int
  maxAge : Option Nat
  onEv : Bool
  evLog : List (K × V)
deriving DecidableEq, Repr

/-- Models `new LRUCache({maxSize, maxAge?, onEviction?})`. -/
def lruFresh (K V : Type) (maxSize : Int) (maxAgeOpt : Option Nat) (onEv : Bool) :
    LRUState K V :=
  ⟨maxSize, [], [], [], 0, 0, effMaxAge maxAgeOpt, onEv, []⟩

variable {K V : Type} [DecidableEq K]

/-- Models `LRUCache.moveToHead`: no-op when the node is already the head, otherwise
unlink it and relink it at the head. -/
def lruMoveToHead (i : Nat) (s : LRUState K V) : LRUState K V :=
  if s.order.head? = some i then s
  else { s with order := i :: remFirst i s.order }

/-- Models `LRUCache.set(key, value, {maxAge})`.  Here `none` models the `TypeError`-free
path throwing inside `perhaps-ts` (`ToChecked`/`FromJust` on `Nothing`),
which can only happen in the eviction branch. -/
def lruSet (now : Nat) (k : K) (v : V) (mA : Option (Option Nat))
    (s : LRUState K V) : Option (LRUState K V) :=
  let expiry := mkExpiry now (mA.getD s.maxAge)
  match alGet k s.cache with
  | some i =>
      let s1 := { s with nodes := alAdjust i (fun d => { d with value := v }) s.nodes }
      some (lruMoveToHead i s1)
  | none =>
      let i := s.nextId
      let s1 : LRUState K V :=
        { s with nodes := s.nodes ++ [(i, ⟨k, v, expiry⟩)],
                 order := i :: s.order,
                 cache := alPut k i s.cache,
                 nextId := i + 1,
                 size := s.size + 1 }
      if s1.size > s1.capacity then
        match s1.order.getLast? with
        | none => none
        | some t =>
            match alGet t s1.nodes with
            | none => none
            | some tn =>
                if s1.order.length < 2 then none
                else
                  some { s1 with
                         cache := alRemove tn.key s1.cache,
                         order := s1.order.dropLast,
                         size := s1.size - 1,
                         evLog := if s1.onEv then s1.evLog ++ [(tn.key, tn.value)]
                                  else s1.evLog }
      else some s1

/-- Models `LRUCache.delete(key)`: unlink from the list, remove from the index,
decrement `size`; returns whether the key was present. -/
def lruDelete (k : K) (s : LRUState K V) : Bool × LRUState K V :=
  match alGet k s.cache with
  | none => (false, s)
  | some i =>
      (true, { s with cache := alRemove k s.cache,
                      order := remFirst i s.order,
                      size := s.size - 1 })

/-- Models `LRUCache.deleteIfExpired(key, item)`. -/
def lruDeleteIfExpired (now : Nat) (k : K) (d : LRUNodeData K V)
    (s : LRUState K V) : Bool × LRUState K V :=
  if isExpired now d.expiry then (true, (lruDelete k s).2) else (false, s)

/-- Models `LRUCache.getOrDeleteIfExpired(key, item)`. -/
def lruGetOrDeleteIfExpired (now : Nat) (k : K) (i : Nat) (d : LRUNodeData K V)
    (s : LRUState K V) : Option V × LRUState K V :=
  let r := lruDeleteIfExpired now k d s
  if r.1 then (none, r.2) else (some d.value, lruMoveToHead i r.2)

/-- Models `LRUCache.get(key)`. -/
def lruGet (now : Nat) (k : K) (s : LRUState K V) : Option V × LRUState K V :=
  match alGet k s.cache with
  | none => (none, s)
  | some i =>
      match alGet i s.nodes with
      | none => (none, s)
      | some d => lruGetOrDeleteIfExpired now k i d s

/-- Models `LRUCache.peek(key)` (same body as `get`). -/
def lruPeek (now : Nat) (k : K) (s : LRUState K V) : Option V × LRUState K V :=
  match alGet k s.cache with
  | none => (none, s)
  | some i =>
      match alGet i s.nodes with
      | none => (none, s)
      | some d => lruGetOrDeleteIfExpired now k i d s

/-- Models `LRUCache.has(key)`. -/
def lruHas (k : K) (s : LRUState K V) : Bool :=
  (alGet k s.cache).isSome

/-- Models `LRUCache.clear()`. -/
def lruClear (s : LRUState K V) : LRUState K V :=
  { s with cache := [], order := [], size := 0 }

/-- Models `LRUCache.maxSizeValue`. -/
def lruMaxSizeValue (s : LRUState K V) : Int :=
  s.capacity

/-- The loop of `LRUCache.entriesAscendingInternal()`: walk the index,
deleting expired entries and yielding the rest. -/
def lruEntriesAscGo (now : Nat) :
    List (K × Nat) → LRUState K V → List (K × Nat) × LRUState K V
  | [], s => ([], s)
  | (k, i) :: rest, s =>
      let expired := match alGet i s.nodes with
        | some d => isExpired now d.expiry
        | none => false
      if expired then lruEntriesAscGo now rest (lruDelete k s).2
      else
        let r := lruEntriesAscGo now rest s
        ((k, i) :: r.1, r.2)

/-- Models `[...this.entriesAscendingInternal()]` (as used by `resize`). -/
def lruEntriesAscInternal (now : Nat) (s : LRUState K V) :
    List (K × Nat) × LRUState K V :=
  lruEntriesAscGo now s.cache s

/-- Models `LRUCache.resize(newSize)`: `none` models the thrown `TypeError`.
The key index is rebuilt from the surviving snapshot; the linked list
(`order`) is not touched. -/
def lruResize (now : Nat) (newSize : Int) (s : LRUState K V) :
    Option (LRUState K V) :=
  if newSize ≤ 0 then none
  else
    let r := lruEntriesAscInternal now s
    let items := r.1
    let s1 := r.2
    let removeCount : Int := (items.length : Int) - newSize
    if removeCount > 0 then
      let rc := removeCount.toNat
      let evicted := (items.take rc).filterMap
        (fun p => (alGet p.2 s1.nodes).map (fun d => (p.1, d.value)))
      some { s1 with cache := items.drop rc,
                     size := newSize,
                     evLog := if s1.onEv then s1.evLog ++ evicted else s1.evLog }
    else
      some { s1 with cache := items, size := (items.length : Int) }

/-! ## LFU cache (`class LFUCache`) -/

/-- The fields of an `LFUNode`. -/
structure LFUNodeData (K V : Type) where
  key : K
  value : V
  freq : Nat
  expiry : Option Nat
deriving DecidableEq, Repr

/-- The state of an `LFUCache` instance. -/
structure LFUState (K V : Type) where
  capacity : Int
  cache : List (K × LFUNodeData K V)
  freqMap : List (Nat × List K)
  minFreq : Nat
  size : Int
  maxAge : Option Nat
  onEv : Bool
  evLog : List (K × V)
deriving DecidableEq, Repr

/-- Models `new LFUCache({maxSize, maxAge?, onEviction?})`. -/
def lfuFresh (K V : Type) (maxSize : Int) (maxAgeOpt : Option Nat) (onEv : Bool) :
    LFUState K V :=
  ⟨maxSize, [], [], 0, 0, effMaxAge maxAgeOpt, onEv, []⟩

/-- Models `LFUCache.updateFrequency(node)` for the node stored at `k`. -/
def lfuUpdateFrequency (k : K) (s : LFUState K V) : LFUState K V :=
  match alGet k s.cache with
  | none => s
  | some nd =>
      let f := nd.freq
      let fm1 := alAdjust f (remFirst k) s.freqMap
      let fm2 := if alGet f fm1 = some [] then alRemove f fm1 else fm1
      let mf := if alGet f fm1 = some [] ∧ s.minFreq = f then s.minFreq + 1
                else s.minFreq
      let fm3 := if (alGet (f + 1) fm2).isSome then fm2 else fm2 ++ [(f + 1, [])]
      { s with cache := alPut k { nd with freq := f + 1 } s.cache,
               freqMap := alAdjust (f + 1) (addLast k) fm3,
               minFreq := mf }

/-- Models `LFUCache.evict()`: take the first key of the bucket at `minFreq`.
`minFreq` itself is not updated here. -/
def lfuEvict (s : LFUState K V) : LFUState K V :=
  match alGet s.minFreq s.freqMap with
  | none => s
  | some [] => { s with freqMap := alRemove s.minFreq s.freqMap }
  | some (k0 :: rest) =>
      let fm1 := alAdjust s.minFreq (fun _ => rest) s.freqMap
      let fm2 := if rest.isEmpty then alRemove s.minFreq fm1 else fm1
      match alGet k0 s.cache with
      | none => { s with freqMap := fm2 }
      | some nd =>
          { s with freqMap := fm2,
                   cache := alRemove k0 s.cache,
                   size := s.size - 1,
                   evLog := if s.onEv then s.evLog ++ [(k0, nd.value)] else s.evLog }

/-- Models `LFUCache.set(key, value, {maxAge})`. -/
def lfuSet (now : Nat) (k : K) (v : V) (mA : Option (Option Nat))
    (s : LFUState K V) : LFUState K V :=
  let expiry := mkExpiry now (mA.getD s.maxAge)
  match alGet k s.cache with
  | some nd =>
      let s1 := { s with
                  cache := alPut k { nd with value := v, expiry := expiry } s.cache }
      lfuUpdateFrequency k s1
  | none =>
      let s1 := if s.size ≥ s.capacity then lfuEvict s else s
      let fm := if (alGet 1 s1.freqMap).isSome then s1.freqMap
                else s1.freqMap ++ [(1, [])]
      { s1 with cache := alPut k ⟨k, v, 1, expiry⟩ s1.cache,
                freqMap := alAdjust 1 (addLast k) fm,
                minFreq := 1,
                size := s1.size + 1 }

/-- Models `LFUCache.delete(key)`. -/
def lfuDelete (k : K) (s : LFUState K V) : Bool × LFUState K V :=
  match alGet k s.cache with
  | none => (false, s)
  | some nd =>
      let f := nd.freq
      let fm1 := alAdjust f (remFirst k) s.freqMap
      let fm2 := if alGet f fm1 = some [] then alRemove f fm1 else fm1
      let mf := if alGet f fm1 = some [] ∧ s.minFreq = f then s.minFreq + 1
                else s.minFreq
      (true, { s with freqMap := fm2,
                      minFreq := mf,
                      cache := alRemove k s.cache,
                      size := s.size - 1 })

/-- Models `LFUCache.getOrDeleteIfExpired(key, item)`. -/
def lfuGetOrDeleteIfExpired (now : Nat) (k : K) (nd : LFUNodeData K V)
    (s : LFUState K V) : Option V × LFUState K V :=
  if isExpired now nd.expiry then (none, (lfuDelete k s).2)
  else (some nd.value, lfuUpdateFrequency k s)

/-- Models `LFUCache.get(key)`. -/
def lfuGet (now : Nat) (k : K) (s : LFUState K V) : Option V × LFUState K V :=
  match alGet k s.cache with
  | none => (none, s)
  | some nd => lfuGetOrDeleteIfExpired now k nd s

/-- Models `LFUCache.peek(key)` (same body as `get`). -/
def lfuPeek (now : Nat) (k : K) (s : LFUState K V) : Option V × LFUState K V :=
  match alGet k s.cache with
  | none => (none, s)
  | some nd => lfuGetOrDeleteIfExpired now k nd s

/-- Models `LFUCache.has(key)`. -/
def lfuHas (k : K) (s : LFUState K V) : Bool :=
  (alGet k s.cache).isSome

/-- Models `LFUCache.clear()`. -/
def lfuClear (s : LFUState K V) : LFUState K V :=
  { s with cache := [], freqMap := [], minFreq := 0, size := 0 }

/-- Models `LFUCache.maxSizeValue`. -/
def lfuMaxSizeValue (s : LFUState K V) : Int :=
  s.capacity

/-- The loop of `LFUCache.entriesAscendingInternal()`. -/
def lfuEntriesAscGo (now : Nat) :
    List (K × LFUNodeData K V) → LFUState K V →
      List (K × LFUNodeData K V) × LFUState K V
  | [], s => ([], s)
  | (k, nd) :: rest, s =>
      if isExpired now nd.expiry then lfuEntriesAscGo now rest (lfuDelete k s).2
      else
        let r := lfuEntriesAscGo now rest s
        ((k, nd) :: r.1, r.2)

/-- Models `[...this.entriesAscendingInternal()]` (as used by `resize`). -/
def lfuEntriesAscInternal (now : Nat) (s : LFUState K V) :
    List (K × LFUNodeData K V) × LFUState K V :=
  lfuEntriesAscGo now s.cache s

/-- Models `LFUCache.resize(newSize)`: `none` models the thrown `TypeError`.
The frequency buckets and `minFreq` are not touched. -/
def lfuResize (now : Nat) (newSize : Int) (s : LFUState K V) :
    Option (LFUState K V) :=
  if newSize ≤ 0 then none
  else
    let r := lfuEntriesAscInternal now s
    let items := r.1
    let s1 := r.2
    let removeCount : Int := (items.length : Int) - newSize
    if removeCount > 0 then
      let rc := removeCount.toNat
      some { s1 with cache := items.drop rc,
                     size := newSize,
                     evLog := if s1.onEv then
                        s1.evLog ++ (items.take rc).map (fun p => (p.1, p.2.value))
                      else s1.evLog }
    else
      some { s1 with cache := items, size := (items.length : Int) }

/-! ## Invariants and operation sequences (definitions) -/

section InvariantDefs

variable {K V : Type} [DecidableEq K]

/-- Structural well-formedness of an `LFUState`, apart from `minFreq`:
unique keys, `size` agrees with the index, every bucket is a non-empty
duplicate-free set of keys at frequency at least 1, buckets contain exactly
the keys whose node carries that frequency, and every cached key sits in the
bucket of its frequency. -/
def LFUPre (s : LFUState K V) : Prop :=
  (s.cache.map Prod.fst).Nodup ∧
  s.size = (s.cache.length : Int) ∧
  (s.freqMap.map Prod.fst).Nodup ∧
  (∀ p ∈ s.freqMap, p.2 ≠ [] ∧ p.2.Nodup ∧ 1 ≤ p.1) ∧
  (∀ p ∈ s.freqMap, ∀ k ∈ p.2, (alGet k s.cache).map LFUNodeData.freq = some p.1) ∧
  (∀ q ∈ s.cache, q.1 ∈ (alGet q.2.freq s.freqMap).getD [])

/-- States `minFreq` correctness: a lower bound on every bucket frequency, `0` on an
empty cache, and pointing at an existing bucket on a non-empty cache. -/
def LFUMin (s : LFUState K V) : Prop :=
  (∀ p ∈ s.freqMap, s.minFreq ≤ p.1) ∧
  (s.cache = [] → s.minFreq = 0) ∧
  (s.cache ≠ [] → (alGet s.minFreq s.freqMap).isSome = true)

/-- Full LFU invariant. -/
def LFUInv (s : LFUState K V) : Prop :=
  LFUPre s ∧ LFUMin s

/-- Apply a list of `set` calls `(now, key, value, maxAge-option)` in order. -/
def lfuRunSets : List (Nat × K × V × Option (Option Nat)) → LFUState K V →
    LFUState K V
  | [], s => s
  | c :: rest, s => lfuRunSets rest (lfuSet c.1 c.2.1 c.2.2.1 c.2.2.2 s)

/-- LRU well-formedness: unique keys; the recency list is a duplicate-free
permutation of the node ids held by the index; every indexed id dereferences
to an arena node carrying that key; arena ids are unique and below the
allocation counter; `size` agrees with the index; and the capacity bound
holds. -/
def LRUInv (s : LRUState K V) : Prop :=
  (s.cache.map Prod.fst).Nodup ∧
  s.order.Nodup ∧
  s.order.Perm (s.cache.map Prod.snd) ∧
  (∀ q ∈ s.cache, (alGet q.2 s.nodes).map LRUNodeData.key = some q.1) ∧
  (s.nodes.map Prod.fst).Nodup ∧
  (∀ q ∈ s.cache, q.2 < s.nextId) ∧
  (∀ p ∈ s.nodes, p.1 < s.nextId) ∧
  s.size = (s.cache.length : Int) ∧
  0 < s.capacity ∧
  s.size ≤ s.capacity

/-- Apply a list of `set` calls `(now, key, value, maxAge-option)` in order;
`none` means some call threw. -/
def lruRunSets : List (Nat × K × V × Option (Option Nat)) → LRUState K V →
    Option (LRUState K V)
  | [], s => some s
  | c :: rest, s => (lruSet c.1 c.2.1 c.2.2.1 c.2.2.2 s).bind (lruRunSets rest)

/-- The public mutating operations of the caches other than `resize`
(and iteration). -/
inductive CacheOp (K V : Type) where
  | doSet (now : Nat) (k : K) (v : V) (mA : Option (Option Nat))
  | doGet (now : Nat) (k : K)
  | doPeek (now : Nat) (k : K)
  | doDelete (k : K)
  | doClear

/-- Run one public operation on an LRU state (`none` = the call threw). -/
def lruApplyOp : CacheOp K V → LRUState K V → Option (LRUState K V)
  | CacheOp.doSet now k v mA, s => lruSet now k v mA s
  | CacheOp.doGet now k, s => some (lruGet now k s).2
  | CacheOp.doPeek now k, s => some (lruPeek now k s).2
  | CacheOp.doDelete k, s => some (lruDelete k s).2
  | CacheOp.doClear, s => some (lruClear s)

def lruRunOps : List (CacheOp K V) → LRUState K V → Option (LRUState K V)
  | [], s => some s
  | o :: rest, s => (lruApplyOp o s).bind (lruRunOps rest)

instance decidableLFUPre [DecidableEq V] (s : LFUState K V) : Decidable (LFUPre s) := by
  unfold LFUPre
  infer_instance

instance decidableLFUMin [DecidableEq V] (s : LFUState K V) : Decidable (LFUMin s) := by
  unfold LFUMin
  infer_instance

instance decidableLFUInv [DecidableEq V] (s : LFUState K V) : Decidable (LFUInv s) := by
  unfold LFUInv
  infer_instance

instance decidableLRUInv (s : LRUState K V) : Decidable (LRUInv s) := by
  unfold LRUInv
  infer_instance

end InvariantDefs


/-! ## Association-list and set-list lemmas -/

section AListLemmas

variable {K : Type} [DecidableEq K] {A : Type}

theorem alGet_nil {k : K} : alGet k ([] : List (K × A)) = none := rfl

theorem alGet_cons {k : K} {p : K × A} {rest : List (K × A)} :
    alGet k (p :: rest) = if p.1 = k then some p.2 else alGet k rest := rfl

theorem alGet_some_mem {k : K} {a : A} {l : List (K × A)} (h : alGet k l = some a) :
    (k, a) ∈ l := by
  induction l with
  | nil => simp [alGet] at h
  | cons p rest ih =>
      rw [alGet_cons] at h
      split at h
      · rename_i hp
        have hpa : p = (k, a) := by
          cases p
          simp only [Option.some.injEq] at h
          simp_all
        rw [← hpa]
        exact List.mem_cons_self p rest
      · exact List.mem_cons_of_mem p (ih h)

theorem alGet_eq_none_of_not_mem {k : K} {l : List (K × A)}
    (h : k ∉ l.map Prod.fst) : alGet k l = none := by
  induction l with
  | nil => rfl
  | cons p rest ih =>
      rw [alGet_cons]
      simp only [List.map_cons, List.mem_cons] at h
      push_neg at h
      rw [if_neg (Ne.symm h.1), ih h.2]

theorem mem_map_fst_of_alGet_some {k : K} {a : A} {l : List (K × A)}
    (h : alGet k l = some a) : k ∈ l.map Prod.fst := by
  exact List.mem_map.2 ⟨(k, a), alGet_some_mem h, rfl⟩

theorem alGet_eq_of_mem {l : List (K × A)} (hn : (l.map Prod.fst).Nodup)
    {k : K} {a : A} (h : (k, a) ∈ l) : alGet k l = some a := by
  induction l with
  | nil => simp at h
  | cons p rest ih =>
      simp only [List.map_cons, List.nodup_cons] at hn
      rcases List.mem_cons.1 h with h | h
      · rw [← h, alGet_cons, if_pos rfl]
      · rw [alGet_cons]
        have hk : p.1 ≠ k := by
          intro hc
          exact hn.1 (hc ▸ List.mem_map.2 ⟨(k, a), h, rfl⟩)
        rw [if_neg hk]
        exact ih hn.2 h

theorem alGet_append_left {k : K} {l₁ l₂ : List (K × A)} {a : A}
    (h : alGet k l₁ = some a) : alGet k (l₁ ++ l₂) = some a := by
  induction l₁ with
  | nil => simp [alGet] at h
  | cons p rest ih =>
      rw [alGet_cons] at h
      rw [List.cons_append, alGet_cons]
      split at h
      · rename_i hp
        rw [if_pos hp]
        exact h
      · rename_i hp
        rw [if_neg hp]
        exact ih h

theorem alGet_append_right {k : K} {l₁ l₂ : List (K × A)}
    (h : k ∉ l₁.map Prod.fst) : alGet k (l₁ ++ l₂) = alGet k l₂ := by
  induction l₁ with
  | nil => rfl
  | cons p rest ih =>
      simp only [List.map_cons, List.mem_cons] at h
      push_neg at h
      rw [List.cons_append, alGet_cons, if_neg (Ne.symm h.1)]
      exact ih h.2

theorem alGet_isSome_of_mem_fst {k : K} {l : List (K × A)}
    (h : k ∈ l.map Prod.fst) : (alGet k l).isSome = true := by
  induction l with
  | nil => simp at h
  | cons p rest ih =>
      rw [alGet_cons]
      by_cases hp : p.1 = k
      · rw [if_pos hp]
        rfl
      · rw [if_neg hp]
        simp only [List.map_cons, List.mem_cons] at h
        rcases h with h | h
        · exact absurd h.symm hp
        · exact ih h

theorem alGet_append_none {k : K} {l₁ l₂ : List (K × A)}
    (h : alGet k l₁ = none) : alGet k (l₁ ++ l₂) = alGet k l₂ := by
  induction l₁ with
  | nil => rfl
  | cons p rest ih =>
      rw [alGet_cons] at h
      rw [List.cons_append, alGet_cons]
      split at h
      · exact absurd h (by simp)
      · rename_i hp
        rw [if_neg hp]
        exact ih h

theorem ne_nil_of_alGet_some {k : K} {a : A} {l : List (K × A)}
    (h : alGet k l = some a) : l ≠ [] := by
  intro hc
  rw [hc] at h
  exact absurd h (by simp [alGet])

theorem alPut_of_not_mem {k : K} {a : A} {l : List (K × A)}
    (h : k ∉ l.map Prod.fst) : alPut k a l = l ++ [(k, a)] := by
  induction l with
  | nil => rfl
  | cons p rest ih =>
      simp only [List.map_cons, List.mem_cons] at h
      push_neg at h
      rw [alPut, if_neg (Ne.symm h.1), ih h.2, List.cons_append]

theorem map_fst_alPut_of_mem {k : K} {a : A} {l : List (K × A)}
    (h : k ∈ l.map Prod.fst) : (alPut k a l).map Prod.fst = l.map Prod.fst := by
  induction l with
  | nil => simp at h
  | cons p rest ih =>
      rw [alPut]
      by_cases hp : p.1 = k
      · rw [if_pos hp]
        simp [hp]
      · rw [if_neg hp]
        simp only [List.map_cons, List.mem_cons] at h
        rcases h with h | h
        · exact absurd h.symm hp
        · simp [ih h]

theorem alGet_alPut_self {k : K} {a : A} {l : List (K × A)} :
    alGet k (alPut k a l) = some a := by
  induction l with
  | nil => simp [alPut, alGet]
  | cons p rest ih =>
      rw [alPut]
      by_cases hp : p.1 = k
      · rw [if_pos hp, alGet_cons, if_pos rfl]
      · rw [if_neg hp, alGet_cons, if_neg hp]
        exact ih

theorem alGet_alPut_ne {k k' : K} {a : A} {l : List (K × A)} (h : k' ≠ k) :
    alGet k' (alPut k a l) = alGet k' l := by
  induction l with
  | nil =>
      simp only [alPut, alGet_cons, alGet_nil]
      rw [if_neg (Ne.symm h)]
  | cons p rest ih =>
      rw [alPut]
      by_cases hp : p.1 = k
      · rw [if_pos hp, alGet_cons, alGet_cons]
        have : ¬(k = k') := fun hc => h hc.symm
        rw [if_neg this, if_neg (hp ▸ this)]
      · rw [if_neg hp, alGet_cons, alGet_cons]
        split
        · rfl
        · exact ih

theorem length_alPut_of_mem {k : K} {a : A} {l : List (K × A)}
    (h : k ∈ l.map Prod.fst) : (alPut k a l).length = l.length := by
  induction l with
  | nil => simp at h
  | cons p rest ih =>
      rw [alPut]
      by_cases hp : p.1 = k
      · rw [if_pos hp]
        simp
      · rw [if_neg hp]
        simp only [List.map_cons, List.mem_cons] at h
        rcases h with h | h
        · exact absurd h.symm hp
        · simp [ih h]

theorem mem_alPut_of_ne {k : K} {a : A} {q : K × A} {l : List (K × A)}
    (hq : q ∈ l) (hne : q.1 ≠ k) : q ∈ alPut k a l := by
  induction l with
  | nil => simp at hq
  | cons p rest ih =>
      rw [alPut]
      rcases List.mem_cons.1 hq with h | h
      · have hp : p.1 ≠ k := h ▸ hne
        rw [if_neg hp]
        exact h ▸ List.mem_cons_self p _
      · split
        · exact List.mem_cons_of_mem _ h
        · exact List.mem_cons_of_mem _ (ih h)

theorem mem_alPut_elim {k : K} {a : A} {q : K × A} {l : List (K × A)}
    (hq : q ∈ alPut k a l) : q = (k, a) ∨ q ∈ l := by
  induction l with
  | nil => simpa [alPut] using hq
  | cons p rest ih =>
      rw [alPut] at hq
      split at hq
      · rcases List.mem_cons.1 hq with h | h
        · exact Or.inl h
        · exact Or.inr (List.mem_cons_of_mem _ h)
      · rcases List.mem_cons.1 hq with h | h
        · exact Or.inr (h ▸ List.mem_cons_self p _)
        · rcases ih h with h | h
          · exact Or.inl h
          · exact Or.inr (List.mem_cons_of_mem _ h)

theorem alRemove_sublist (k : K) (l : List (K × A)) : (alRemove k l).Sublist l := by
  induction l with
  | nil => exact List.Sublist.refl _
  | cons p rest ih =>
      rw [alRemove]
      split
      · exact List.sublist_cons_self p rest
      · exact List.Sublist.cons₂ p ih

theorem alRemove_of_not_mem {k : K} {l : List (K × A)}
    (h : k ∉ l.map Prod.fst) : alRemove k l = l := by
  induction l with
  | nil => rfl
  | cons p rest ih =>
      simp only [List.map_cons, List.mem_cons] at h
      push_neg at h
      rw [alRemove, if_neg (Ne.symm h.1), ih h.2]

theorem map_fst_alRemove (k : K) (l : List (K × A)) :
    (alRemove k l).map Prod.fst = (l.map Prod.fst).erase k := by
  induction l with
  | nil => rfl
  | cons p rest ih =>
      rw [alRemove]
      by_cases hp : p.1 = k
      · rw [if_pos hp]
        simp [List.erase_cons, hp]
      · rw [if_neg hp]
        simp [List.erase_cons, hp, ih]

theorem length_alRemove_of_mem {k : K} {l : List (K × A)}
    (h : k ∈ l.map Prod.fst) : (alRemove k l).length + 1 = l.length := by
  induction l with
  | nil => simp at h
  | cons p rest ih =>
      rw [alRemove]
      by_cases hp : p.1 = k
      · rw [if_pos hp]
        simp
      · rw [if_neg hp]
        simp only [List.map_cons, List.mem_cons] at h
        rcases h with h | h
        · exact absurd h.symm hp
        · simp [← ih h]

theorem mem_alRemove_of_ne {k : K} {q : K × A} {l : List (K × A)}
    (hq : q ∈ l) (hne : q.1 ≠ k) : q ∈ alRemove k l := by
  induction l with
  | nil => simp at hq
  | cons p rest ih =>
      rw [alRemove]
      rcases List.mem_cons.1 hq with h | h
      · have hp : p.1 ≠ k := h ▸ hne
        rw [if_neg hp]
        exact h ▸ List.mem_cons_self p _
      · split
        · exact h
        · exact List.mem_cons_of_mem _ (ih h)

theorem alGet_alRemove_ne {k k' : K} {l : List (K × A)} (h : k' ≠ k)
    (hn : (l.map Prod.fst).Nodup) :
    alGet k' (alRemove k l) = alGet k' l := by
  induction l with
  | nil => rfl
  | cons p rest ih =>
      simp only [List.map_cons, List.nodup_cons] at hn
      rw [alRemove]
      by_cases hp : p.1 = k
      · rw [if_pos hp, alGet_cons]
        have : ¬(p.1 = k') := fun hc => h (hc ▸ hp.symm ▸ rfl)
        rw [if_neg (by rw [hp] at this ⊢; exact fun hc => h hc.symm)]
      · rw [if_neg hp, alGet_cons, alGet_cons]
        split
        · rfl
        · exact ih hn.2

theorem alGet_alRemove_self {k : K} {l : List (K × A)}
    (hn : (l.map Prod.fst).Nodup) : alGet k (alRemove k l) = none := by
  apply alGet_eq_none_of_not_mem
  rw [map_fst_alRemove]
  intro hc
  have := List.Nodup.not_mem_erase (a := k) hn
  exact this hc

theorem map_fst_alAdjust (k : K) (f : A → A) (l : List (K × A)) :
    (alAdjust k f l).map Prod.fst = l.map Prod.fst := by
  induction l with
  | nil => rfl
  | cons p rest ih =>
      rw [alAdjust]
      by_cases hp : p.1 = k
      · rw [if_pos hp]
        simp [hp]
      · rw [if_neg hp]
        simp [ih]

theorem alGet_alAdjust_self {k : K} {f : A → A} {l : List (K × A)} :
    alGet k (alAdjust k f l) = (alGet k l).map f := by
  induction l with
  | nil => rfl
  | cons p rest ih =>
      rw [alAdjust]
      by_cases hp : p.1 = k
      · rw [if_pos hp, alGet_cons, if_pos rfl, alGet_cons, if_pos hp]
        rfl
      · rw [if_neg hp, alGet_cons, alGet_cons, if_neg hp, if_neg hp]
        exact ih

theorem alGet_alAdjust_ne {k k' : K} {f : A → A} {l : List (K × A)} (h : k' ≠ k) :
    alGet k' (alAdjust k f l) = alGet k' l := by
  induction l with
  | nil => rfl
  | cons p rest ih =>
      rw [alAdjust]
      by_cases hp : p.1 = k
      · rw [if_pos hp, alGet_cons, alGet_cons]
        have h1 : ¬(k = k') := fun hc => h hc.symm
        rw [if_neg h1, if_neg (hp ▸ h1)]
      · rw [if_neg hp, alGet_cons, alGet_cons]
        split
        · rfl
        · exact ih

theorem mem_alAdjust_of_ne {k : K} {f : A → A} {q : K × A} {l : List (K × A)}
    (hq : q ∈ l) (hne : q.1 ≠ k) : q ∈ alAdjust k f l := by
  induction l with
  | nil => simp at hq
  | cons p rest ih =>
      rw [alAdjust]
      rcases List.mem_cons.1 hq with h | h
      · have hp : p.1 ≠ k := h ▸ hne
        rw [if_neg hp]
        exact h ▸ List.mem_cons_self p _
      · split
        · exact List.mem_cons_of_mem _ h
        · exact List.mem_cons_of_mem _ (ih h)

theorem mem_alAdjust_elim {k : K} {f : A → A} {q : K × A} {l : List (K × A)}
    (hq : q ∈ alAdjust k f l) :
    (∃ a, (k, a) ∈ l ∧ q = (k, f a)) ∨ q ∈ l := by
  induction l with
  | nil => simp [alAdjust] at hq
  | cons p rest ih =>
      rw [alAdjust] at hq
      split at hq
      · rename_i hp
        rcases List.mem_cons.1 hq with h | h
        · refine Or.inl ⟨p.2, ?_, h⟩
          rw [← hp]
          exact List.mem_cons_self p rest
        · exact Or.inr (List.mem_cons_of_mem _ h)
      · rcases List.mem_cons.1 hq with h | h
        · exact Or.inr (h ▸ List.mem_cons_self p _)
        · rcases ih h with ⟨a, ha, hqa⟩ | h
          · exact Or.inl ⟨a, List.mem_cons_of_mem _ ha, hqa⟩
          · exact Or.inr (List.mem_cons_of_mem _ h)

theorem remFirst_eq_erase (k : K) (l : List K) : remFirst k l = l.erase k := by
  induction l with
  | nil => rfl
  | cons x rest ih =>
      rw [remFirst, List.erase_cons]
      by_cases hx : x = k
      · rw [if_pos hx, if_pos (by simp [hx])]
      · rw [if_neg hx, if_neg (by simp [hx]), ih]

theorem mem_addLast {k x : K} {l : List K} :
    x ∈ addLast k l ↔ x ∈ l ∨ x = k := by
  unfold addLast
  split
  · rename_i h
    constructor
    · exact Or.inl
    · rintro (hx | rfl)
      · exact hx
      · exact h
  · simp

theorem addLast_nodup {k : K} {l : List K} (h : l.Nodup) : (addLast k l).Nodup := by
  unfold addLast
  split
  · exact h
  · rename_i hk
    simpa [List.nodup_append] using ⟨h, hk⟩

theorem addLast_ne_nil {k : K} {l : List K} : addLast k l ≠ [] := by
  unfold addLast
  split
  · rename_i h
    exact fun hc => by simp [hc] at h
  · simp

theorem dropLast_eq_erase_of_getLast {α : Type} [DecidableEq α] {l : List α} {a : α}
    (hn : l.Nodup) (hl : l.getLast? = some a) : l.dropLast = l.erase a := by
  have hne : l ≠ [] := by
    intro hc
    rw [hc] at hl
    simp at hl
  have hlast : l.getLast hne = a := by
    have := List.getLast?_eq_getLast l hne
    rw [this] at hl
    exact Option.some.inj hl
  have hsplit : l.dropLast ++ [l.getLast hne] = l := List.dropLast_append_getLast hne
  have hnotmem : a ∉ l.dropLast := by
    intro hc
    have hn' : (l.dropLast ++ [l.getLast hne]).Nodup := by rw [hsplit]; exact hn
    have hdisj := (List.nodup_append.1 hn').2.2
    exact hdisj hc (hlast ▸ List.mem_singleton_self a)
  calc l.dropLast = (l.dropLast ++ [a]).erase a := by
        rw [List.erase_append_right _ hnotmem]
        simp
    _ = l.erase a := by rw [← hlast, hsplit]

theorem map_snd_alRemove {l : List (K × A)} [DecidableEq A]
    (hk : (l.map Prod.fst).Nodup) (hs : (l.map Prod.snd).Nodup)
    {k : K} {i : A} (hmem : (k, i) ∈ l) :
    (alRemove k l).map Prod.snd = (l.map Prod.snd).erase i := by
  induction l with
  | nil => simp at hmem
  | cons p rest ih =>
      simp only [List.map_cons, List.nodup_cons] at hk hs
      rw [alRemove]
      by_cases hp : p.1 = k
      · rw [if_pos hp]
        have hpk : p = (k, i) := by
          rcases List.mem_cons.1 hmem with h | h
          · exact h.symm
          · exact absurd (hp ▸ List.mem_map.2 ⟨(k, i), h, rfl⟩) hk.1
        rw [hpk]
        simp [List.erase_cons]
      · rw [if_neg hp]
        have hmem' : (k, i) ∈ rest := by
          rcases List.mem_cons.1 hmem with h | h
          · exact absurd (congrArg Prod.fst h.symm) hp
          · exact h
        have hpi : ¬(p.2 = i) := by
          intro hc
          exact hs.1 (hc ▸ List.mem_map.2 ⟨(k, i), hmem', rfl⟩)
        simp only [List.map_cons, List.erase_cons]
        rw [if_neg (by simpa using hpi), ih hk.2 hs.2 hmem']

end AListLemmas

/-! ## LFU invariants -/

section LFUInvariant

variable {K V : Type} [DecidableEq K]

theorem lfuUpdateFrequency_eq {k : K} {nd : LFUNodeData K V} {s : LFUState K V}
    (hget : alGet k s.cache = some nd) :
    lfuUpdateFrequency k s =
      { s with
        cache := alPut k { nd with freq := nd.freq + 1 } s.cache,
        freqMap := alAdjust (nd.freq + 1) (addLast k)
          (if (alGet (nd.freq + 1)
                (if alGet nd.freq (alAdjust nd.freq (remFirst k) s.freqMap) = some [] then
                  alRemove nd.freq (alAdjust nd.freq (remFirst k) s.freqMap)
                 else alAdjust nd.freq (remFirst k) s.freqMap)).isSome then
            (if alGet nd.freq (alAdjust nd.freq (remFirst k) s.freqMap) = some [] then
              alRemove nd.freq (alAdjust nd.freq (remFirst k) s.freqMap)
             else alAdjust nd.freq (remFirst k) s.freqMap)
           else
            (if alGet nd.freq (alAdjust nd.freq (remFirst k) s.freqMap) = some [] then
              alRemove nd.freq (alAdjust nd.freq (remFirst k) s.freqMap)
             else alAdjust nd.freq (remFirst k) s.freqMap) ++ [(nd.freq + 1, [])]),
        minFreq :=
          if alGet nd.freq (alAdjust nd.freq (remFirst k) s.freqMap) = some []
              ∧ s.minFreq = nd.freq then
            s.minFreq + 1
          else s.minFreq } := by
  simp only [lfuUpdateFrequency, hget]

theorem lfuUpdateFrequency_inv {s : LFUState K V} (hI : LFUInv s)
    {k : K} {nd : LFUNodeData K V} (hget : alGet k s.cache = some nd) :
    LFUInv (lfuUpdateFrequency k s) := by
  obtain ⟨⟨hKND, hSZ, hFND, hBP, hBC, hCB⟩, hLB, hE0, hNE⟩ := hI
  rw [lfuUpdateFrequency_eq hget]
  set f := nd.freq with hf
  set A := alAdjust f (remFirst k) s.freqMap with hAdef
  set B := if alGet f A = some [] then alRemove f A else A with hBdef
  set Cm := if (alGet (f + 1) B).isSome then B else B ++ [(f + 1, [])] with hCdef
  set D := alAdjust (f + 1) (addLast k) Cm with hDdef
  set nd1 : LFUNodeData K V := { nd with freq := f + 1 } with hnd1
  set P := alPut k nd1 s.cache with hPdef
  set M := if alGet f A = some [] ∧ s.minFreq = f then s.minFreq + 1 else s.minFreq
    with hMdef
  have hkmem : k ∈ s.cache.map Prod.fst := mem_map_fst_of_alGet_some hget
  have hcb_k : k ∈ (alGet f s.freqMap).getD [] := by
    have := hCB (k, nd) (alGet_some_mem hget)
    exact this
  obtain ⟨B0, hB0get, hkB0⟩ : ∃ B0, alGet f s.freqMap = some B0 ∧ k ∈ B0 := by
    cases hB0 : alGet f s.freqMap with
    | none => rw [hB0] at hcb_k; simp at hcb_k
    | some B0 =>
        rw [hB0] at hcb_k
        exact ⟨B0, rfl, hcb_k⟩
  have hB0mem : (f, B0) ∈ s.freqMap := alGet_some_mem hB0get
  have hB0props := hBP _ hB0mem
  have hminf : s.minFreq ≤ f := hLB _ hB0mem
  have hA_f : alGet f A = some (remFirst k B0) := by
    rw [hAdef, alGet_alAdjust_self, hB0get]
    rfl
  have hA_ne : ∀ g, g ≠ f → alGet g A = alGet g s.freqMap := by
    intro g hg
    rw [hAdef, alGet_alAdjust_ne hg]
  have hAnodup : (A.map Prod.fst).Nodup := by
    rw [hAdef, map_fst_alAdjust]
    exact hFND
  have hB_ne : ∀ g, g ≠ f → alGet g B = alGet g s.freqMap := by
    intro g hg
    rw [hBdef]
    split
    · rw [alGet_alRemove_ne hg hAnodup, hA_ne g hg]
    · exact hA_ne g hg
  have hB_f : alGet f B = if remFirst k B0 = [] then none else some (remFirst k B0) := by
    by_cases hre : remFirst k B0 = []
    · rw [hBdef, if_pos (by rw [hA_f, hre]), if_pos hre]
      exact alGet_alRemove_self hAnodup
    · rw [hBdef, if_neg (by rw [hA_f]; simpa using hre), if_neg hre]
      exact hA_f
  have hBnodup : (B.map Prod.fst).Nodup := by
    rw [hBdef]
    split
    · rw [map_fst_alRemove]
      exact hAnodup.erase _
    · exact hAnodup
  have hBf1 : alGet (f + 1) B = alGet (f + 1) s.freqMap := hB_ne _ (by omega)
  have hC_ne : ∀ g, g ≠ f + 1 → alGet g Cm = alGet g B := by
    intro g hg
    rw [hCdef]
    split
    · rfl
    · cases hBg : alGet g B with
      | some x => exact alGet_append_left hBg
      | none =>
          rw [alGet_append_none hBg, alGet_cons]
          rw [if_neg (by simpa using Ne.symm hg), alGet_nil]
  have hC_f1 : alGet (f + 1) Cm = some ((alGet (f + 1) B).getD []) := by
    rw [hCdef]
    split
    · rename_i hs
      cases hx : alGet (f + 1) B with
      | some x => rfl
      | none => rw [hx] at hs; simp at hs
    · rename_i hs
      have hnone : alGet (f + 1) B = none := by
        cases hx : alGet (f + 1) B with
        | some x => rw [hx] at hs; simp at hs
        | none => rfl
      rw [alGet_append_none hnone, hnone, alGet_cons, if_pos rfl]
      rfl
  have hCnodup : (Cm.map Prod.fst).Nodup := by
    rw [hCdef]
    split
    · exact hBnodup
    · rename_i hs
      have hnone : alGet (f + 1) B = none := by
        cases hx : alGet (f + 1) B with
        | some x => rw [hx] at hs; simp at hs
        | none => rfl
      have hnm : f + 1 ∉ B.map Prod.fst := by
        intro hc
        have hcs := alGet_isSome_of_mem_fst hc
        rw [hnone] at hcs
        exact absurd hcs (by simp)
      simp only [List.map_append, List.map_cons, List.map_nil]
      rw [List.nodup_append]
      refine ⟨hBnodup, List.nodup_singleton _, ?_⟩
      intro x hx hmem
      have hxf : x = f + 1 := by simpa using hmem
      exact hnm (hxf ▸ hx)
  have hD_f1 : alGet (f + 1) D = some (addLast k ((alGet (f + 1) B).getD [])) := by
    rw [hDdef, alGet_alAdjust_self, hC_f1]
    rfl
  have hD_f : alGet f D = alGet f B := by
    rw [hDdef, alGet_alAdjust_ne (by omega), hC_ne f (by omega)]
  have hD_other : ∀ g, g ≠ f → g ≠ f + 1 → alGet g D = alGet g s.freqMap := by
    intro g h1 h2
    rw [hDdef, alGet_alAdjust_ne h2, hC_ne g h2, hB_ne g h1]
  have hDnodup : (D.map Prod.fst).Nodup := by
    rw [hDdef, map_fst_alAdjust]
    exact hCnodup
  have hP_self : alGet k P = some nd1 := alGet_alPut_self
  have hP_ne : ∀ k', k' ≠ k → alGet k' P = alGet k' s.cache := by
    intro k' h
    rw [hPdef, alGet_alPut_ne h]
  have hPkeys : P.map Prod.fst = s.cache.map Prod.fst := map_fst_alPut_of_mem hkmem
  have hPlen : P.length = s.cache.length := length_alPut_of_mem hkmem
  have hPnodup : (P.map Prod.fst).Nodup := by rw [hPkeys]; exact hKND
  have hPne : P ≠ [] := ne_nil_of_alGet_some hP_self
  refine ⟨⟨hPnodup, ?_, hDnodup, ?_, ?_, ?_⟩, ?_, fun hc => absurd hc hPne, ?_⟩
  · show s.size = (P.length : Int)
    rw [hPlen]
    exact hSZ
  · -- every bucket of D is non-empty, duplicate-free, at frequency ≥ 1
    show ∀ p ∈ D, p.2 ≠ [] ∧ p.2.Nodup ∧ 1 ≤ p.1
    intro p hp
    have hpget : alGet p.1 D = some p.2 := alGet_eq_of_mem hDnodup hp
    by_cases h1 : p.1 = f + 1
    · rw [h1, hD_f1] at hpget
      have hp2 : p.2 = addLast k ((alGet (f + 1) B).getD []) :=
        (Option.some.inj hpget).symm
      have hnodup : ((alGet (f + 1) B).getD ([] : List K)).Nodup := by
        rw [hBf1]
        cases hx : alGet (f + 1) s.freqMap with
        | none => simp
        | some B1 => simpa using (hBP _ (alGet_some_mem hx)).2.1
      exact ⟨hp2 ▸ addLast_ne_nil, hp2 ▸ addLast_nodup hnodup, by omega⟩
    · by_cases h2 : p.1 = f
      · rw [h2, hD_f, hB_f] at hpget
        split at hpget
        · exact absurd hpget (by simp)
        · rename_i hre
          have hp2 : p.2 = remFirst k B0 := (Option.some.inj hpget).symm
          refine ⟨hp2 ▸ hre, ?_, by omega⟩
          rw [hp2, remFirst_eq_erase]
          exact hB0props.2.1.erase _
      · rw [hD_other p.1 h2 h1] at hpget
        exact hBP _ (alGet_some_mem hpget)
  · -- bucket membership determines the stored frequency
    show ∀ p ∈ D, ∀ k' ∈ p.2, (alGet k' P).map LFUNodeData.freq = some p.1
    intro p hp k' hk'
    have hpget : alGet p.1 D = some p.2 := alGet_eq_of_mem hDnodup hp
    by_cases h1 : p.1 = f + 1
    · rw [h1, hD_f1] at hpget
      have hp2 : p.2 = addLast k ((alGet (f + 1) B).getD []) :=
        (Option.some.inj hpget).symm
      rw [hp2, mem_addLast] at hk'
      rcases hk' with hk' | rfl
      · rw [hBf1] at hk'
        cases hx : alGet (f + 1) s.freqMap with
        | none => rw [hx] at hk'; simp at hk'
        | some B1 =>
            rw [hx] at hk'
            simp only [Option.getD_some] at hk'
            have hor := hBC _ (alGet_some_mem hx) k' hk'
            have hk'ne : k' ≠ k := by
              intro hc
              rw [hc, hget] at hor
              simp only [Option.map_some] at hor
              have : f = f + 1 := Option.some.inj hor
              omega
            rw [h1, hP_ne k' hk'ne]
            exact hor
      · rw [h1, hP_self]
        rfl
    · by_cases h2 : p.1 = f
      · rw [h2, hD_f, hB_f] at hpget
        split at hpget
        · exact absurd hpget (by simp)
        · have hp2 : p.2 = remFirst k B0 := (Option.some.inj hpget).symm
          rw [hp2, remFirst_eq_erase] at hk'
          have hk'B0 : k' ∈ B0 := (List.erase_sublist _ _).subset hk'
          have hk'ne : k' ≠ k := by
            intro hc
            rw [hc] at hk'
            exact (List.Nodup.not_mem_erase hB0props.2.1) hk'
          rw [h2, hP_ne k' hk'ne]
          exact hBC _ hB0mem k' hk'B0
      · rw [hD_other p.1 h2 h1] at hpget
        have hpmem := alGet_some_mem hpget
        have hor := hBC _ hpmem k' hk'
        have hk'ne : k' ≠ k := by
          intro hc
          rw [hc, hget] at hor
          simp only [Option.map_some] at hor
          exact h2 (Option.some.inj hor).symm
        rw [hP_ne k' hk'ne]
        exact hor
  · -- every cached key lies in the bucket of its frequency
    show ∀ q ∈ P, q.1 ∈ (alGet q.2.freq D).getD []
    intro q hq
    have hqget : alGet q.1 P = some q.2 := alGet_eq_of_mem hPnodup hq
    by_cases hqk : q.1 = k
    · rw [hqk, hP_self] at hqget
      have hq2 : q.2 = nd1 := (Option.some.inj hqget).symm
      rw [hqk, hq2]
      show k ∈ (alGet nd1.freq D).getD []
      have : nd1.freq = f + 1 := rfl
      rw [this, hD_f1]
      simp only [Option.getD_some]
      rw [mem_addLast]
      exact Or.inr rfl
    · rw [hP_ne q.1 hqk] at hqget
      have hqmem := alGet_some_mem hqget
      have horig := hCB _ hqmem
      by_cases hg1 : q.2.freq = f + 1
      · rw [hg1] at horig ⊢
        rw [hD_f1]
        cases hx : alGet (f + 1) s.freqMap with
        | none => rw [hx] at horig; simp at horig
        | some B1 =>
            rw [hx] at horig
            rw [hBf1, hx]
            simp only [Option.getD_some] at horig ⊢
            rw [mem_addLast]
            exact Or.inl horig
      · by_cases hg2 : q.2.freq = f
        · rw [hg2] at horig ⊢
          rw [hB0get] at horig
          simp only [Option.getD_some] at horig
          have hqB : q.1 ∈ remFirst k B0 := by
            rw [remFirst_eq_erase]
            exact (List.mem_erase_of_ne hqk).2 horig
          have hre : remFirst k B0 ≠ [] := by
            intro hc
            rw [hc] at hqB
            simp at hqB
          rw [hD_f, hB_f, if_neg hre]
          simpa using hqB
        · rw [hD_other _ hg2 hg1]
          exact horig
  · -- minFreq is a lower bound for every bucket of D
    show ∀ p ∈ D, M ≤ p.1
    intro p hp
    have hpget : alGet p.1 D = some p.2 := alGet_eq_of_mem hDnodup hp
    rw [hMdef]
    split
    · rename_i hcond
      by_cases h1 : p.1 = f + 1
      · omega
      · by_cases h2 : p.1 = f
        · rw [h2, hD_f, hB_f] at hpget
          have hre : remFirst k B0 = [] := by
            have := hcond.1
            rw [hA_f] at this
            exact Option.some.inj this
          rw [if_pos hre] at hpget
          exact absurd hpget (by simp)
        · rw [hD_other p.1 h2 h1] at hpget
          have := hLB _ (alGet_some_mem hpget)
          have hmf : s.minFreq = f := hcond.2
          omega
    · by_cases h1 : p.1 = f + 1
      · omega
      · by_cases h2 : p.1 = f
        · omega
        · rw [hD_other p.1 h2 h1] at hpget
          exact hLB _ (alGet_some_mem hpget)
  · -- minFreq points at an existing bucket
    intro _
    show (alGet M D).isSome = true
    rw [hMdef]
    split
    · rename_i hcond
      rw [hcond.2, hD_f1]
      rfl
    · rename_i hcond
      by_cases hmf : s.minFreq = f
      · have hre : remFirst k B0 ≠ [] := by
          intro hc
          exact hcond ⟨by rw [hA_f, hc], hmf⟩
        rw [hmf, hD_f, hB_f, if_neg hre]
        rfl
      · by_cases hmf1 : s.minFreq = f + 1
        · rw [hmf1, hD_f1]
          rfl
        · rw [hD_other _ hmf hmf1]
          exact hNE (ne_nil_of_alGet_some hget)

theorem bucketAdd_get_self {F : Type} [DecidableEq F] (g : F) (k : K)
    (fm : List (F × List K)) :
    alGet g (alAdjust g (addLast k)
        (if (alGet g fm).isSome then fm else fm ++ [(g, [])])) =
      some (addLast k ((alGet g fm).getD [])) := by
  rw [alGet_alAdjust_self]
  split
  · rename_i hs
    cases hx : alGet g fm with
    | some x => rfl
    | none => rw [hx] at hs; simp at hs
  · rename_i hs
    have hnone : alGet g fm = none := by
      cases hx : alGet g fm with
      | some x => rw [hx] at hs; simp at hs
      | none => rfl
    rw [alGet_append_none hnone, hnone, alGet_cons, if_pos rfl]
    rfl

theorem bucketAdd_get_ne {F : Type} [DecidableEq F] {g g' : F} (hg : g' ≠ g) (k : K)
    (fm : List (F × List K)) :
    alGet g' (alAdjust g (addLast k)
        (if (alGet g fm).isSome then fm else fm ++ [(g, [])])) = alGet g' fm := by
  rw [alGet_alAdjust_ne hg]
  split
  · rfl
  · cases hx : alGet g' fm with
    | some x => exact alGet_append_left hx
    | none =>
        rw [alGet_append_none hx, alGet_cons]
        rw [if_neg (by simpa using Ne.symm hg), alGet_nil]

theorem bucketAdd_nodup {F : Type} [DecidableEq F] (g : F) (k : K)
    {fm : List (F × List K)} (hn : (fm.map Prod.fst).Nodup) :
    ((alAdjust g (addLast k)
        (if (alGet g fm).isSome then fm else fm ++ [(g, [])])).map Prod.fst).Nodup := by
  rw [map_fst_alAdjust]
  split
  · exact hn
  · rename_i hs
    have hnone : alGet g fm = none := by
      cases hx : alGet g fm with
      | some x => rw [hx] at hs; simp at hs
      | none => rfl
    have hnm : g ∉ fm.map Prod.fst := by
      intro hc
      have hcs := alGet_isSome_of_mem_fst hc
      rw [hnone] at hcs
      exact absurd hcs (by simp)
    simp only [List.map_append, List.map_cons, List.map_nil]
    rw [List.nodup_append]
    refine ⟨hn, List.nodup_singleton _, ?_⟩
    intro x hx hmem
    have hxg : x = g := by simpa using hmem
    exact hnm (hxg ▸ hx)

theorem lfuUpdateFrequency_fields (k : K) (s : LFUState K V) :
    (lfuUpdateFrequency k s).size = s.size ∧
    (lfuUpdateFrequency k s).capacity = s.capacity ∧
    (lfuUpdateFrequency k s).evLog = s.evLog ∧
    (lfuUpdateFrequency k s).onEv = s.onEv ∧
    (lfuUpdateFrequency k s).maxAge = s.maxAge ∧
    (lfuUpdateFrequency k s).cache.length = s.cache.length := by
  cases hget : alGet k s.cache with
  | none =>
      have heq : lfuUpdateFrequency k s = s := by
        simp only [lfuUpdateFrequency, hget]
      rw [heq]
      exact ⟨rfl, rfl, rfl, rfl, rfl, rfl⟩
  | some nd =>
      rw [lfuUpdateFrequency_eq hget]
      exact ⟨rfl, rfl, rfl, rfl, rfl,
        length_alPut_of_mem (mem_map_fst_of_alGet_some hget)⟩

theorem lfuEvict_eq {s : LFUState K V} {k0 : K} {rest : List K}
    {nd0 : LFUNodeData K V}
    (hks : alGet s.minFreq s.freqMap = some (k0 :: rest))
    (hnd0 : alGet k0 s.cache = some nd0) :
    lfuEvict s =
      { s with
        freqMap := if rest.isEmpty then
            alRemove s.minFreq (alAdjust s.minFreq (fun _ => rest) s.freqMap)
          else alAdjust s.minFreq (fun _ => rest) s.freqMap,
        cache := alRemove k0 s.cache,
        size := s.size - 1,
        evLog := if s.onEv then s.evLog ++ [(k0, nd0.value)] else s.evLog } := by
  simp only [lfuEvict, hks, hnd0]

theorem lfuEvict_inv {s : LFUState K V} (hI : LFUInv s) (hne : s.cache ≠ []) :
    LFUPre (lfuEvict s) ∧
    (lfuEvict s).size = s.size - 1 ∧
    ((lfuEvict s).cache.length : Int) = (s.cache.length : Int) - 1 ∧
    (lfuEvict s).capacity = s.capacity ∧
    (lfuEvict s).maxAge = s.maxAge ∧
    (∀ k', alGet k' s.cache = none → alGet k' (lfuEvict s).cache = none) := by
  obtain ⟨⟨hKND, hSZ, hFND, hBP, hBC, hCB⟩, hLB, hE0, hNE⟩ := hI
  obtain ⟨ks, hks⟩ : ∃ ks, alGet s.minFreq s.freqMap = some ks := by
    have := hNE hne
    cases hx : alGet s.minFreq s.freqMap with
    | none => rw [hx] at this; simp at this
    | some ks => exact ⟨ks, rfl⟩
  have hksmem : (s.minFreq, ks) ∈ s.freqMap := alGet_some_mem hks
  have hksprops := hBP _ hksmem
  obtain ⟨k0, rest, rfl⟩ : ∃ k0 rest, ks = k0 :: rest := by
    cases ks with
    | nil => exact absurd rfl hksprops.1
    | cons k0 rest => exact ⟨k0, rest, rfl⟩
  have hk0fr := hBC _ hksmem k0 (List.mem_cons_self _ _)
  obtain ⟨nd0, hnd0, hnd0fr⟩ :
      ∃ nd0, alGet k0 s.cache = some nd0 ∧ nd0.freq = s.minFreq := by
    cases hx : alGet k0 s.cache with
    | none => rw [hx] at hk0fr; simp at hk0fr
    | some nd0 =>
        rw [hx] at hk0fr
        simp only [Option.map_some] at hk0fr
        exact ⟨nd0, rfl, Option.some.inj hk0fr⟩
  rw [lfuEvict_eq hks hnd0]
  set F2 := if rest.isEmpty then
      alRemove s.minFreq (alAdjust s.minFreq (fun _ => rest) s.freqMap)
    else alAdjust s.minFreq (fun _ => rest) s.freqMap with hF2def
  set P := alRemove k0 s.cache with hPdef
  have hk0mem : k0 ∈ s.cache.map Prod.fst := mem_map_fst_of_alGet_some hnd0
  have hAnodup : ((alAdjust s.minFreq (fun _ => rest) s.freqMap).map Prod.fst).Nodup := by
    rw [map_fst_alAdjust]
    exact hFND
  have hF2nodup : (F2.map Prod.fst).Nodup := by
    rw [hF2def]
    split
    · rw [map_fst_alRemove]
      exact hAnodup.erase _
    · exact hAnodup
  have hF2_min : alGet s.minFreq F2 = if rest.isEmpty then none else some rest := by
    rw [hF2def]
    split
    · exact alGet_alRemove_self hAnodup
    · rw [alGet_alAdjust_self, hks]
      rfl
  have hF2_ne : ∀ g, g ≠ s.minFreq → alGet g F2 = alGet g s.freqMap := by
    intro g hg
    rw [hF2def]
    split
    · rw [alGet_alRemove_ne hg hAnodup, alGet_alAdjust_ne hg]
    · rw [alGet_alAdjust_ne hg]
  have hPnodup : (P.map Prod.fst).Nodup := by
    rw [hPdef, map_fst_alRemove]
    exact hKND.erase _
  have hP_k0 : alGet k0 P = none := alGet_alRemove_self hKND
  have hP_ne : ∀ k', k' ≠ k0 → alGet k' P = alGet k' s.cache := by
    intro k' h
    rw [hPdef, alGet_alRemove_ne h hKND]
  have hPlen : P.length + 1 = s.cache.length := length_alRemove_of_mem hk0mem
  refine ⟨⟨hPnodup, ?_, hF2nodup, ?_, ?_, ?_⟩, rfl, by
      show ((P.length : Int)) = (s.cache.length : Int) - 1
      omega, rfl, rfl, ?_⟩
  · show s.size - 1 = (P.length : Int)
    omega
  · show ∀ p ∈ F2, p.2 ≠ [] ∧ p.2.Nodup ∧ 1 ≤ p.1
    intro p hp
    have hpget : alGet p.1 F2 = some p.2 := alGet_eq_of_mem hF2nodup hp
    by_cases h1 : p.1 = s.minFreq
    · rw [h1, hF2_min] at hpget
      split at hpget
      · exact absurd hpget (by simp)
      · rename_i hre
        have hp2 : p.2 = rest := (Option.some.inj hpget).symm
        refine ⟨hp2 ▸ (by simpa using hre), ?_, by
          have := hksprops.2.2
          omega⟩
        rw [hp2]
        exact (List.nodup_cons.1 hksprops.2.1).2
    · rw [hF2_ne p.1 h1] at hpget
      exact hBP _ (alGet_some_mem hpget)
  · show ∀ p ∈ F2, ∀ k' ∈ p.2, (alGet k' P).map LFUNodeData.freq = some p.1
    intro p hp k' hk'
    have hpget : alGet p.1 F2 = some p.2 := alGet_eq_of_mem hF2nodup hp
    by_cases h1 : p.1 = s.minFreq
    · rw [h1, hF2_min] at hpget
      split at hpget
      · exact absurd hpget (by simp)
      · have hp2 : p.2 = rest := (Option.some.inj hpget).symm
        rw [hp2] at hk'
        have hk'ne : k' ≠ k0 := by
          intro hc
          have := (List.nodup_cons.1 hksprops.2.1).1
          exact this (hc ▸ hk')
        rw [h1, hP_ne k' hk'ne]
        exact hBC _ hksmem k' (List.mem_cons_of_mem _ hk')
    · rw [hF2_ne p.1 h1] at hpget
      have hpmem := alGet_some_mem hpget
      have hor := hBC _ hpmem k' hk'
      have hk'ne : k' ≠ k0 := by
        intro hc
        rw [hc, hnd0] at hor
        simp only [Option.map_some] at hor
        have h3 : nd0.freq = p.1 := Option.some.inj hor
        exact h1 (by omega)
      rw [hP_ne k' hk'ne]
      exact hor
  · show ∀ q ∈ P, q.1 ∈ (alGet q.2.freq F2).getD []
    intro q hq
    have hqget : alGet q.1 P = some q.2 := alGet_eq_of_mem hPnodup hq
    have hqk : q.1 ≠ k0 := by
      intro hc
      rw [hc, hP_k0] at hqget
      exact absurd hqget (by simp)
    rw [hP_ne q.1 hqk] at hqget
    have hqmem := alGet_some_mem hqget
    have horig := hCB _ hqmem
    by_cases hg : q.2.freq = s.minFreq
    · rw [hg] at horig ⊢
      rw [hks] at horig
      simp only [Option.getD_some] at horig
      have hqrest : q.1 ∈ rest := by
        rcases List.mem_cons.1 horig with h | h
        · exact absurd h hqk
        · exact h
      have hrne : ¬rest.isEmpty := by
        cases rest with
        | nil => simp at hqrest
        | cons a b => simp
      rw [hF2_min, if_neg hrne]
      simpa using hqrest
    · rw [hF2_ne _ hg]
      exact horig
  · intro k' hk'
    by_cases hc : k' = k0
    · rw [hc]
      exact hP_k0
    · rw [hP_ne k' hc]
      exact hk'

theorem lfuInsert_inv {s1 : LFUState K V} (hP : LFUPre s1) {k : K}
    (hk : alGet k s1.cache = none) (v : V) (e : Option Nat) :
    LFUInv { s1 with
      cache := alPut k ⟨k, v, 1, e⟩ s1.cache,
      freqMap := alAdjust 1 (addLast k)
        (if (alGet 1 s1.freqMap).isSome then s1.freqMap else s1.freqMap ++ [(1, [])]),
      minFreq := 1,
      size := s1.size + 1 } := by
  obtain ⟨hKND, hSZ, hFND, hBP, hBC, hCB⟩ := hP
  have hknm : k ∉ s1.cache.map Prod.fst := by
    intro hc
    have := alGet_isSome_of_mem_fst hc
    rw [hk] at this
    exact absurd this (by simp)
  set nd : LFUNodeData K V := ⟨k, v, 1, e⟩ with hnddef
  set P := alPut k nd s1.cache with hPdef
  set D := alAdjust 1 (addLast k)
      (if (alGet 1 s1.freqMap).isSome then s1.freqMap else s1.freqMap ++ [(1, [])])
    with hDdef
  have hP_self : alGet k P = some nd := alGet_alPut_self
  have hP_ne : ∀ k', k' ≠ k → alGet k' P = alGet k' s1.cache := by
    intro k' h
    rw [hPdef, alGet_alPut_ne h]
  have hPeq : P = s1.cache ++ [(k, nd)] := alPut_of_not_mem hknm
  have hPnodup : (P.map Prod.fst).Nodup := by
    rw [hPeq]
    simp only [List.map_append, List.map_cons, List.map_nil]
    rw [List.nodup_append]
    refine ⟨hKND, List.nodup_singleton _, ?_⟩
    intro x hx hmem
    have hxk : x = k := by simpa using hmem
    exact hknm (hxk ▸ hx)
  have hD1 : alGet 1 D = some (addLast k ((alGet 1 s1.freqMap).getD [])) :=
    bucketAdd_get_self 1 k s1.freqMap
  have hD_ne : ∀ g, g ≠ 1 → alGet g D = alGet g s1.freqMap := by
    intro g hg
    exact bucketAdd_get_ne hg k s1.freqMap
  have hDnodup : (D.map Prod.fst).Nodup := bucketAdd_nodup 1 k hFND
  have hPne : P ≠ [] := ne_nil_of_alGet_some hP_self
  refine ⟨⟨hPnodup, ?_, hDnodup, ?_, ?_, ?_⟩, ?_, fun hc => absurd hc hPne, fun _ => ?_⟩
  · show s1.size + 1 = (P.length : Int)
    rw [hPeq]
    simp only [List.length_append, List.length_cons, List.length_nil]
    omega
  · show ∀ p ∈ D, p.2 ≠ [] ∧ p.2.Nodup ∧ 1 ≤ p.1
    intro p hp
    have hpget : alGet p.1 D = some p.2 := alGet_eq_of_mem hDnodup hp
    by_cases h1 : p.1 = 1
    · rw [h1, hD1] at hpget
      have hp2 : p.2 = addLast k ((alGet 1 s1.freqMap).getD []) :=
        (Option.some.inj hpget).symm
      have hnodup : ((alGet 1 s1.freqMap).getD ([] : List K)).Nodup := by
        cases hx : alGet 1 s1.freqMap with
        | none => simp
        | some B1 => simpa using (hBP _ (alGet_some_mem hx)).2.1
      exact ⟨hp2 ▸ addLast_ne_nil, hp2 ▸ addLast_nodup hnodup, by omega⟩
    · rw [hD_ne p.1 h1] at hpget
      exact hBP _ (alGet_some_mem hpget)
  · show ∀ p ∈ D, ∀ k' ∈ p.2, (alGet k' P).map LFUNodeData.freq = some p.1
    intro p hp k' hk'
    have hpget : alGet p.1 D = some p.2 := alGet_eq_of_mem hDnodup hp
    by_cases h1 : p.1 = 1
    · rw [h1, hD1] at hpget
      have hp2 : p.2 = addLast k ((alGet 1 s1.freqMap).getD []) :=
        (Option.some.inj hpget).symm
      rw [hp2, mem_addLast] at hk'
      rcases hk' with hk' | rfl
      · cases hx : alGet 1 s1.freqMap with
        | none => rw [hx] at hk'; simp at hk'
        | some B1 =>
            rw [hx] at hk'
            simp only [Option.getD_some] at hk'
            have hor := hBC _ (alGet_some_mem hx) k' hk'
            have hk'ne : k' ≠ k := by
              intro hc
              rw [hc, hk] at hor
              simp at hor
            rw [h1, hP_ne k' hk'ne]
            exact hor
      · rw [h1, hP_self]
        rfl
    · rw [hD_ne p.1 h1] at hpget
      have hpmem := alGet_some_mem hpget
      have hor := hBC _ hpmem k' hk'
      have hk'ne : k' ≠ k := by
        intro hc
        rw [hc, hk] at hor
        simp at hor
      rw [hP_ne k' hk'ne]
      exact hor
  · show ∀ q ∈ P, q.1 ∈ (alGet q.2.freq D).getD []
    intro q hq
    have hqget : alGet q.1 P = some q.2 := alGet_eq_of_mem hPnodup hq
    by_cases hqk : q.1 = k
    · rw [hqk, hP_self] at hqget
      have hq2 : q.2 = nd := (Option.some.inj hqget).symm
      rw [hqk, hq2]
      show k ∈ (alGet nd.freq D).getD []
      have hfr : nd.freq = 1 := rfl
      rw [hfr, hD1]
      simp only [Option.getD_some]
      rw [mem_addLast]
      exact Or.inr rfl
    · rw [hP_ne q.1 hqk] at hqget
      have hqmem := alGet_some_mem hqget
      have horig := hCB _ hqmem
      by_cases hg : q.2.freq = 1
      · rw [hg] at horig ⊢
        rw [hD1]
        cases hx : alGet 1 s1.freqMap with
        | none => rw [hx] at horig; simp at horig
        | some B1 =>
            rw [hx] at horig
            simp only [Option.getD_some] at horig ⊢
            rw [mem_addLast]
            exact Or.inl horig
      · rw [hD_ne _ hg]
        exact horig
  · show ∀ p ∈ D, 1 ≤ p.1
    intro p hp
    have hpget : alGet p.1 D = some p.2 := alGet_eq_of_mem hDnodup hp
    by_cases h1 : p.1 = 1
    · omega
    · rw [hD_ne p.1 h1] at hpget
      exact (hBP _ (alGet_some_mem hpget)).2.2
  · show (alGet 1 D).isSome = true
    rw [hD1]
    rfl

theorem lfuSet_eq_new {now : Nat} {k : K} {v : V} {mA : Option (Option Nat)}
    {s : LFUState K V} (hk : alGet k s.cache = none) :
    lfuSet now k v mA s =
      (fun s1 => { s1 with
        cache := alPut k ⟨k, v, 1, mkExpiry now (mA.getD s.maxAge)⟩ s1.cache,
        freqMap := alAdjust 1 (addLast k)
          (if (alGet 1 s1.freqMap).isSome then s1.freqMap else s1.freqMap ++ [(1, [])]),
        minFreq := 1,
        size := s1.size + 1 })
      (if s.size ≥ s.capacity then lfuEvict s else s) := by
  simp only [lfuSet, hk]

theorem lfuSet_eq_overwrite {now : Nat} {k : K} {v : V} {mA : Option (Option Nat)}
    {s : LFUState K V} {nd : LFUNodeData K V} (hk : alGet k s.cache = some nd) :
    lfuSet now k v mA s =
      lfuUpdateFrequency k
        { s with cache := (alPut k
            { nd with value := v, expiry := mkExpiry now (mA.getD s.maxAge) }
            s.cache) } := by
  simp only [lfuSet, hk]

theorem lfuSet_inv {s : LFUState K V} (hI : LFUInv s) (hcap : 0 < s.capacity)
    (now : Nat) (k : K) (v : V) (mA : Option (Option Nat)) :
    LFUInv (lfuSet now k v mA s) ∧
    (lfuSet now k v mA s).capacity = s.capacity ∧
    (lfuSet now k v mA s).maxAge = s.maxAge ∧
    (s.size ≤ s.capacity → (lfuSet now k v mA s).size ≤ s.capacity) := by
  cases hk : alGet k s.cache with
  | some nd =>
      rw [lfuSet_eq_overwrite hk]
      set nd1 : LFUNodeData K V :=
        { nd with value := v, expiry := mkExpiry now (mA.getD s.maxAge) } with hnd1
      set s1 : LFUState K V := { s with cache := alPut k nd1 s.cache } with hs1
      have hkmem : k ∈ s.cache.map Prod.fst := mem_map_fst_of_alGet_some hk
      obtain ⟨⟨hKND, hSZ, hFND, hBP, hBC, hCB⟩, hLB, hE0, hNE⟩ := hI
      have hPkeys : s1.cache.map Prod.fst = s.cache.map Prod.fst :=
        map_fst_alPut_of_mem hkmem
      have hPnodup : (s1.cache.map Prod.fst).Nodup := by rw [hPkeys]; exact hKND
      have hfreq_eq : ∀ k', (alGet k' s1.cache).map LFUNodeData.freq =
          (alGet k' s.cache).map LFUNodeData.freq := by
        intro k'
        by_cases hc : k' = k
        · rw [hc]
          show (alGet k (alPut k nd1 s.cache)).map LFUNodeData.freq = _
          rw [alGet_alPut_self, hk]
          rfl
        · show (alGet k' (alPut k nd1 s.cache)).map LFUNodeData.freq = _
          rw [alGet_alPut_ne hc]
      have hI1 : LFUInv s1 := by
        refine ⟨⟨hPnodup, ?_, hFND, hBP, ?_, ?_⟩, hLB, ?_, ?_⟩
        · show s.size = (s1.cache.length : Int)
          show s.size = ((alPut k nd1 s.cache).length : Int)
          rw [length_alPut_of_mem hkmem]
          exact hSZ
        · intro p hp k' hk'
          rw [hfreq_eq k']
          exact hBC p hp k' hk'
        · intro q hq
          have hqget : alGet q.1 s1.cache = some q.2 := alGet_eq_of_mem hPnodup hq
          by_cases hqk : q.1 = k
          · rw [hqk] at hqget
            have : alGet k s1.cache = some nd1 := alGet_alPut_self
            rw [this] at hqget
            have hq2 : q.2 = nd1 := (Option.some.inj hqget).symm
            rw [hqk, hq2]
            show k ∈ (alGet nd1.freq s.freqMap).getD []
            have : nd1.freq = nd.freq := rfl
            rw [this]
            exact hCB (k, nd) (alGet_some_mem hk)
          · have : alGet q.1 s1.cache = alGet q.1 s.cache := alGet_alPut_ne hqk
            rw [this] at hqget
            exact hCB q (alGet_some_mem hqget)
        · intro hc
          have hself : alGet k (alPut k nd1 s.cache) = some nd1 := alGet_alPut_self
          exact absurd hc (ne_nil_of_alGet_some hself)
        · intro _
          exact hNE (ne_nil_of_alGet_some hk)
      have hget1 : alGet k s1.cache = some nd1 := alGet_alPut_self
      have hfields := lfuUpdateFrequency_fields k s1
      refine ⟨lfuUpdateFrequency_inv hI1 hget1, ?_, ?_, ?_⟩
      · rw [hfields.2.1]
      · rw [hfields.2.2.2.2.1]
      · intro hsz
        rw [hfields.1]
        exact hsz
  | none =>
      rw [lfuSet_eq_new hk]
      by_cases hge : s.size ≥ s.capacity
      · rw [if_pos hge]
        have hne : s.cache ≠ [] := by
          intro hc
          have := hI.1.2.1
          rw [hc] at this
          simp only [List.length_nil, Nat.cast_zero] at this
          omega
        obtain ⟨hPre1, hsz1, hlen1, hcap1, hmax1, hnone1⟩ := lfuEvict_inv hI hne
        have hk1 : alGet k (lfuEvict s).cache = none := hnone1 k hk
        have hres := lfuInsert_inv hPre1 hk1 v (mkExpiry now (mA.getD s.maxAge))
        refine ⟨hres, by rw [hcap1], by rw [hmax1], ?_⟩
        intro hsz
        show (lfuEvict s).size + 1 ≤ s.capacity
        omega
      · rw [if_neg hge]
        have hres := lfuInsert_inv hI.1 hk v (mkExpiry now (mA.getD s.maxAge))
        refine ⟨hres, rfl, rfl, ?_⟩
        intro _
        show s.size + 1 ≤ s.capacity
        omega

theorem lfuGet_inv {s : LFUState K V} (hI : LFUInv s) (now : Nat) (k : K)
    (hfresh : ∀ nd, alGet k s.cache = some nd → isExpired now nd.expiry = false) :
    LFUInv (lfuGet now k s).2 := by
  cases hk : alGet k s.cache with
  | none => simpa [lfuGet, hk] using hI
  | some nd =>
      have hexp := hfresh nd hk
      simp only [lfuGet, hk, lfuGetOrDeleteIfExpired, hexp]
      exact lfuUpdateFrequency_inv hI hk

theorem lfuClear_inv (s : LFUState K V) : LFUInv (lfuClear s) := by
  refine ⟨⟨?_, ?_, ?_, ?_, ?_, ?_⟩, ?_, ?_, ?_⟩ <;>
    simp [lfuClear, LFUPre, LFUMin, alGet]

theorem lfuFresh_inv (maxSize : Int) (maxAgeOpt : Option Nat) (onEv : Bool) :
    LFUInv (lfuFresh K V maxSize maxAgeOpt onEv) := by
  refine ⟨⟨?_, ?_, ?_, ?_, ?_, ?_⟩, ?_, ?_, ?_⟩ <;>
    simp [lfuFresh, LFUPre, LFUMin, alGet]

theorem lfuRunSets_good (calls : List (Nat × K × V × Option (Option Nat)))
    {s : LFUState K V} (hI : LFUInv s) (hcap : 0 < s.capacity)
    (hsz : s.size ≤ s.capacity) :
    LFUInv (lfuRunSets calls s) ∧
    (lfuRunSets calls s).capacity = s.capacity ∧
    (lfuRunSets calls s).size ≤ s.capacity := by
  induction calls generalizing s with
  | nil => exact ⟨hI, rfl, hsz⟩
  | cons c rest ih =>
      obtain ⟨hI1, hcap1, hmax1, hsz1⟩ := lfuSet_inv hI hcap c.1 c.2.1 c.2.2.1 c.2.2.2
      have := ih hI1 (by rw [hcap1]; exact hcap) (by rw [hcap1]; exact hsz1 hsz)
      rw [lfuRunSets]
      exact ⟨this.1, by rw [this.2.1, hcap1], by rw [← hcap1]; exact this.2.2⟩

end LFUInvariant

/-! ## LRU invariants -/

section LRUInvariant

variable {K V : Type} [DecidableEq K]

theorem lruMoveToHead_fields (i : Nat) (s : LRUState K V) :
    (lruMoveToHead i s).cache = s.cache ∧
    (lruMoveToHead i s).nodes = s.nodes ∧
    (lruMoveToHead i s).size = s.size ∧
    (lruMoveToHead i s).capacity = s.capacity ∧
    (lruMoveToHead i s).nextId = s.nextId ∧
    (lruMoveToHead i s).maxAge = s.maxAge ∧
    (lruMoveToHead i s).onEv = s.onEv ∧
    (lruMoveToHead i s).evLog = s.evLog := by
  unfold lruMoveToHead
  split <;> exact ⟨rfl, rfl, rfl, rfl, rfl, rfl, rfl, rfl⟩

theorem lruMoveToHead_order {s : LRUState K V} (hn : s.order.Nodup) {i : Nat}
    (hio : i ∈ s.order) :
    (lruMoveToHead i s).order.Perm s.order ∧ (lruMoveToHead i s).order.Nodup := by
  unfold lruMoveToHead
  split
  · exact ⟨List.Perm.refl _, hn⟩
  · constructor
    · show (i :: remFirst i s.order).Perm s.order
      rw [remFirst_eq_erase]
      exact (List.perm_cons_erase hio).symm
    · show (i :: remFirst i s.order).Nodup
      rw [remFirst_eq_erase, List.nodup_cons]
      exact ⟨List.Nodup.not_mem_erase hn, hn.erase _⟩

theorem lruMoveToHead_inv {s : LRUState K V} (hI : LRUInv s) {i : Nat}
    (hio : i ∈ s.order) : LRUInv (lruMoveToHead i s) := by
  obtain ⟨h1, h2, h3, h4, h5, h6, h7, h8, h9, h10⟩ := hI
  obtain ⟨hf1, hf2, hf3, hf4, hf5, hf6, hf7, hf8⟩ := lruMoveToHead_fields i s
  obtain ⟨hp, hn⟩ := lruMoveToHead_order h2 hio
  refine ⟨?_, hn, ?_, ?_, ?_, ?_, ?_, ?_, ?_, ?_⟩
  · rw [hf1]; exact h1
  · rw [hf1]; exact hp.trans h3
  · rw [hf1, hf2]; exact h4
  · rw [hf2]; exact h5
  · rw [hf1, hf5]; exact h6
  · rw [hf2, hf5]; exact h7
  · rw [hf3, hf1]; exact h8
  · rw [hf4]; exact h9
  · rw [hf3, hf4]; exact h10

theorem lruDelete_fields (k : K) (s : LRUState K V) :
    (lruDelete k s).2.capacity = s.capacity ∧
    (lruDelete k s).2.nodes = s.nodes ∧
    (lruDelete k s).2.nextId = s.nextId ∧
    (lruDelete k s).2.maxAge = s.maxAge ∧
    (lruDelete k s).2.onEv = s.onEv ∧
    (lruDelete k s).2.evLog = s.evLog := by
  unfold lruDelete
  cases alGet k s.cache <;> exact ⟨rfl, rfl, rfl, rfl, rfl, rfl⟩

theorem lruDelete_inv {s : LRUState K V} (hI : LRUInv s) (k : K) :
    LRUInv (lruDelete k s).2 := by
  obtain ⟨h1, h2, h3, h4, h5, h6, h7, h8, h9, h10⟩ := hI
  cases hk : alGet k s.cache with
  | none =>
      have heq : (lruDelete k s).2 = s := by
        simp only [lruDelete, hk]
      rw [heq]
      exact ⟨h1, h2, h3, h4, h5, h6, h7, h8, h9, h10⟩
  | some i =>
      have heq : (lruDelete k s).2 =
          { s with cache := alRemove k s.cache,
                   order := remFirst i s.order,
                   size := s.size - 1 } := by
        simp only [lruDelete, hk]
      rw [heq]
      have hki : (k, i) ∈ s.cache := alGet_some_mem hk
      have hkmem : k ∈ s.cache.map Prod.fst := mem_map_fst_of_alGet_some hk
      have hsnodup : (s.cache.map Prod.snd).Nodup := h3.symm.nodup_iff.2 h2
      have hperm : (remFirst i s.order).Perm ((alRemove k s.cache).map Prod.snd) := by
        rw [remFirst_eq_erase, map_snd_alRemove h1 hsnodup hki]
        exact h3.erase i
      refine ⟨?_, ?_, hperm, ?_, h5, ?_, h7, ?_, h9, ?_⟩
      · show ((alRemove k s.cache).map Prod.fst).Nodup
        rw [map_fst_alRemove]
        exact h1.erase _
      · show (remFirst i s.order).Nodup
        rw [remFirst_eq_erase]
        exact h2.erase _
      · intro q hq
        exact h4 q ((alRemove_sublist k s.cache).subset hq)
      · intro q hq
        exact h6 q ((alRemove_sublist k s.cache).subset hq)
      · show s.size - 1 = ((alRemove k s.cache).length : Int)
        have := length_alRemove_of_mem hkmem
        omega
      · show s.size - 1 ≤ s.capacity
        omega

theorem lruGet_inv {s : LRUState K V} (hI : LRUInv s) (now : Nat) (k : K) :
    LRUInv (lruGet now k s).2 := by
  cases hk : alGet k s.cache with
  | none =>
      have heq : (lruGet now k s).2 = s := by simp only [lruGet, hk]
      rw [heq]
      exact hI
  | some i =>
      cases hd : alGet i s.nodes with
      | none =>
          have heq : (lruGet now k s).2 = s := by simp only [lruGet, hk, hd]
          rw [heq]
          exact hI
      | some d =>
          have hio : i ∈ s.order := by
            have hmem : i ∈ s.cache.map Prod.snd :=
              List.mem_map.2 ⟨(k, i), alGet_some_mem hk, rfl⟩
            exact hI.2.2.1.mem_iff.2 hmem
          by_cases hexp : isExpired now d.expiry
          · have heq : (lruGet now k s).2 = (lruDelete k s).2 := by
              simp only [lruGet, hk, hd, lruGetOrDeleteIfExpired,
                lruDeleteIfExpired, hexp, if_true]
            rw [heq]
            exact lruDelete_inv hI k
          · have heq : (lruGet now k s).2 = lruMoveToHead i s := by
              simp only [lruGet, hk, hd, lruGetOrDeleteIfExpired,
                lruDeleteIfExpired, hexp]
              rfl
            rw [heq]
            exact lruMoveToHead_inv hI hio

theorem lruPeek_eq_get (now : Nat) (k : K) (s : LRUState K V) :
    lruPeek now k s = lruGet now k s := by
  unfold lruPeek lruGet
  rfl

theorem lruClear_inv {s : LRUState K V} (hI : LRUInv s) :
    LRUInv (lruClear s) := by
  obtain ⟨_, _, _, _, h5, _, h7, _, h9, _⟩ := hI
  refine ⟨?_, ?_, ?_, ?_, h5, ?_, h7, ?_, h9, ?_⟩ <;>
    simp [lruClear, alGet]
  omega

theorem lruFresh_inv (maxSize : Int) (hpos : 0 < maxSize)
    (maxAgeOpt : Option Nat) (onEv : Bool) :
    LRUInv (lruFresh K V maxSize maxAgeOpt onEv) := by
  refine ⟨?_, ?_, ?_, ?_, ?_, ?_, ?_, ?_, hpos, ?_⟩ <;>
    simp [lruFresh, alGet]
  omega

theorem lruSet_eq_overwrite {now : Nat} {k : K} {v : V} {mA : Option (Option Nat)}
    {s : LRUState K V} {i : Nat} (hk : alGet k s.cache = some i) :
    lruSet now k v mA s = some (lruMoveToHead i
      { s with nodes := alAdjust i (fun d => { d with value := v }) s.nodes }) := by
  simp only [lruSet, hk]

theorem lruSet_inv {s : LRUState K V} (hI : LRUInv s) (now : Nat) (k : K) (v : V)
    (mA : Option (Option Nat)) :
    ∃ s', lruSet now k v mA s = some s' ∧ LRUInv s' ∧
      s'.capacity = s.capacity ∧ s'.maxAge = s.maxAge ∧ s'.onEv = s.onEv := by
  obtain ⟨h1, h2, h3, h4, h5, h6, h7, h8, h9, h10⟩ := hI
  cases hk : alGet k s.cache with
  | some i =>
      set N := alAdjust i (fun d => { d with value := v }) s.nodes with hN
      set s1 : LRUState K V := { s with nodes := N } with hs1
      have hio : i ∈ s.order := by
        have hmem : i ∈ s.cache.map Prod.snd :=
          List.mem_map.2 ⟨(k, i), alGet_some_mem hk, rfl⟩
        exact h3.mem_iff.2 hmem
      have hI1 : LRUInv s1 := by
        refine ⟨h1, h2, h3, ?_, ?_, h6, ?_, h8, h9, h10⟩
        · show ∀ q ∈ s.cache, (alGet q.2 N).map LRUNodeData.key = some q.1
          intro q hq
          have horig := h4 q hq
          by_cases hqi : q.2 = i
          · rw [hqi] at horig ⊢
            rw [hN, alGet_alAdjust_self]
            cases hx : alGet i s.nodes with
            | none => rw [hx] at horig; simp at horig
            | some d =>
                rw [hx] at horig
                simpa using horig
          · rw [hN, alGet_alAdjust_ne hqi]
            exact horig
        · show (N.map Prod.fst).Nodup
          rw [hN, map_fst_alAdjust]
          exact h5
        · show ∀ p ∈ N, p.1 < s.nextId
          intro p hp
          rcases mem_alAdjust_elim hp with ⟨a, ha, rfl⟩ | hp'
          · exact h7 (i, a) ha
          · exact h7 p hp'
      refine ⟨lruMoveToHead i s1, lruSet_eq_overwrite hk,
        lruMoveToHead_inv hI1 hio, ?_, ?_, ?_⟩
      · exact (lruMoveToHead_fields i s1).2.2.2.1
      · exact (lruMoveToHead_fields i s1).2.2.2.2.2.1
      · exact (lruMoveToHead_fields i s1).2.2.2.2.2.2.1
  | none =>
      have hknm : k ∉ s.cache.map Prod.fst := by
        intro hc
        have := alGet_isSome_of_mem_fst hc
        rw [hk] at this
        exact absurd this (by simp)
      have hfresh_snd : ∀ j ∈ s.cache.map Prod.snd, j < s.nextId := by
        intro j hj
        obtain ⟨q, hq, rfl⟩ := List.mem_map.1 hj
        exact h6 q hq
      have hfresh_o : s.nextId ∉ s.order := by
        intro hc
        have := hfresh_snd _ (h3.mem_iff.1 hc)
        omega
      have hfresh_n : s.nextId ∉ s.nodes.map Prod.fst := by
        intro hc
        obtain ⟨p, hp, hp1⟩ := List.mem_map.1 hc
        have := h7 p hp
        omega
      set nd : LRUNodeData K V := ⟨k, v, mkExpiry now (mA.getD s.maxAge)⟩ with hnd
      have hcache1 : alPut k s.nextId s.cache = s.cache ++ [(k, s.nextId)] :=
        alPut_of_not_mem hknm
      have hkeys1 : ((alPut k s.nextId s.cache).map Prod.fst).Nodup := by
        rw [hcache1]
        simp only [List.map_append, List.map_cons, List.map_nil]
        rw [List.nodup_append]
        refine ⟨h1, List.nodup_singleton _, ?_⟩
        intro x hx hmem
        have hxk : x = k := by simpa using hmem
        exact hknm (hxk ▸ hx)
      have hsnds1 : (alPut k s.nextId s.cache).map Prod.snd =
          s.cache.map Prod.snd ++ [s.nextId] := by
        rw [hcache1]
        simp
      have horder1nodup : (s.nextId :: s.order).Nodup :=
        List.nodup_cons.2 ⟨hfresh_o, h2⟩
      have hperm1 : (s.nextId :: s.order).Perm
          ((alPut k s.nextId s.cache).map Prod.snd) := by
        rw [hsnds1]
        exact ((h3.cons s.nextId).trans
          (List.perm_append_singleton s.nextId (s.cache.map Prod.snd)).symm)
      have hnodes1get : ∀ j, j ≠ s.nextId →
          alGet j (s.nodes ++ [(s.nextId, nd)]) = alGet j s.nodes := by
        intro j hj
        cases hx : alGet j s.nodes with
        | some d => exact alGet_append_left hx
        | none =>
            rw [alGet_append_none hx, alGet_cons]
            rw [if_neg (by simpa using Ne.symm hj), alGet_nil]
      have hnodes1self : alGet s.nextId (s.nodes ++ [(s.nextId, nd)]) = some nd := by
        rw [alGet_append_none (alGet_eq_none_of_not_mem hfresh_n), alGet_cons]
        rw [if_pos rfl]
      have hnodes1nodup : ((s.nodes ++ [(s.nextId, nd)]).map Prod.fst).Nodup := by
        simp only [List.map_append, List.map_cons, List.map_nil]
        rw [List.nodup_append]
        refine ⟨h5, List.nodup_singleton _, ?_⟩
        intro x hx hmem
        have hxn : x = s.nextId := by simpa using hmem
        exact hfresh_n (hxn ▸ hx)
      have hcons1 : ∀ q ∈ alPut k s.nextId s.cache,
          (alGet q.2 (s.nodes ++ [(s.nextId, nd)])).map LRUNodeData.key = some q.1 := by
        intro q hq
        rcases mem_alPut_elim hq with rfl | hq'
        · rw [hnodes1self]
          rfl
        · have hne : q.2 ≠ s.nextId := by
            intro hc
            have := h6 q hq'
            omega
          rw [hnodes1get q.2 hne]
          exact h4 q hq'
      have hb1 : ∀ q ∈ alPut k s.nextId s.cache, q.2 < s.nextId + 1 := by
        intro q hq
        rcases mem_alPut_elim hq with rfl | hq'
        · omega
        · have := h6 q hq'
          omega
      have hb2 : ∀ p ∈ s.nodes ++ [(s.nextId, nd)], p.1 < s.nextId + 1 := by
        intro p hp
        rcases List.mem_append.1 hp with hp' | hp'
        · have := h7 p hp'
          omega
        · have : p = (s.nextId, nd) := by simpa using hp'
          rw [this]
          omega
      have hlen1 : (alPut k s.nextId s.cache).length = s.cache.length + 1 := by
        rw [hcache1]
        simp
      simp only [lruSet, hk]
      by_cases hov : s.size + 1 > s.capacity
      · rw [if_pos hov]
        have hszc : s.size = s.capacity := by omega
        have hlenpos : 1 ≤ s.cache.length := by
          by_contra hle
          have : s.cache.length = 0 := by omega
          rw [this] at h8
          simp only [Nat.cast_zero] at h8
          omega
        obtain ⟨o1, orest, horder⟩ : ∃ o1 orest, s.order = o1 :: orest := by
          cases horder : s.order with
          | nil =>
              have := h3.length_eq
              rw [horder] at this
              simp only [List.length_nil] at this
              rw [List.length_map] at this
              omega
          | cons o1 orest => exact ⟨o1, orest, rfl⟩
        have hone : s.order ≠ [] := by rw [horder]; simp
        set t := s.order.getLast hone with ht
        have hlast0 : s.order.getLast? = some t := List.getLast?_eq_getLast _ hone
        have hlast : (s.nextId :: s.order).getLast? = some t := by
          rw [horder] at hlast0 ⊢
          rw [List.getLast?_cons_cons]
          exact hlast0
        have htmem : t ∈ s.order := ht ▸ List.getLast_mem hone
        obtain ⟨q0, hq0mem, hq0snd⟩ :
            ∃ q0 ∈ s.cache, q0.2 = t :=
          List.mem_map.1 (h3.mem_iff.1 htmem)
        have hq0pair : (q0.1, t) ∈ s.cache := by
          rw [← hq0snd]
          exact hq0mem
        obtain ⟨tn0, htn0, htn0key⟩ :
            ∃ tn0, alGet t s.nodes = some tn0 ∧ tn0.key = q0.1 := by
          have := h4 _ hq0pair
          cases hx : alGet t s.nodes with
          | none => rw [hx] at this; simp at this
          | some d =>
              rw [hx] at this
              simp only [Option.map_some] at this
              exact ⟨d, rfl, Option.some.inj this⟩
        have htn1 : alGet t (s.nodes ++ [(s.nextId, nd)]) = some tn0 := by
          have hne : t ≠ s.nextId := by
            intro hc
            exact hfresh_o (hc ▸ htmem)
          rw [hnodes1get t hne]
          exact htn0
        rw [← hnd]
        simp only [hlast, htn1]
        have hlen2 : ¬((s.nextId :: s.order).length < 2) := by
          rw [List.length_cons, horder, List.length_cons]
          omega
        rw [if_neg hlen2]
        have hk0mem1 : (tn0.key, t) ∈ alPut k s.nextId s.cache := by
          rw [htn0key]
          apply mem_alPut_of_ne hq0pair
          intro hc
          exact hknm (hc ▸ List.mem_map.2 ⟨(q0.1, t), hq0pair, rfl⟩)
        have hk0keys1 : tn0.key ∈ (alPut k s.nextId s.cache).map Prod.fst :=
          List.mem_map.2 ⟨(tn0.key, t), hk0mem1, rfl⟩
        have hsnds1nodup : ((alPut k s.nextId s.cache).map Prod.snd).Nodup :=
          hperm1.symm.nodup_iff.2 horder1nodup
        have horder2 : (s.nextId :: s.order).dropLast =
            (s.nextId :: s.order).erase t :=
          dropLast_eq_erase_of_getLast horder1nodup hlast
        have hperm2 : ((s.nextId :: s.order).dropLast).Perm
            ((alRemove tn0.key (alPut k s.nextId s.cache)).map Prod.snd) := by
          rw [horder2, map_snd_alRemove hkeys1 hsnds1nodup hk0mem1]
          exact hperm1.erase t
        refine ⟨_, rfl, ⟨?_, ?_, ?_, ?_, hnodes1nodup, ?_, hb2, ?_, h9, ?_⟩,
          rfl, rfl, rfl⟩
        · show ((alRemove tn0.key (alPut k s.nextId s.cache)).map Prod.fst).Nodup
          rw [map_fst_alRemove]
          exact hkeys1.erase _
        · show ((s.nextId :: s.order).dropLast).Nodup
          exact (List.dropLast_sublist _).nodup horder1nodup
        · exact hperm2
        · show ∀ q ∈ alRemove tn0.key (alPut k s.nextId s.cache),
            (alGet q.2 (s.nodes ++ [(s.nextId, nd)])).map LRUNodeData.key = some q.1
          intro q hq
          exact hcons1 q ((alRemove_sublist _ _).subset hq)
        · show ∀ q ∈ alRemove tn0.key (alPut k s.nextId s.cache), q.2 < s.nextId + 1
          intro q hq
          exact hb1 q ((alRemove_sublist _ _).subset hq)
        · show s.size + 1 - 1 =
            ((alRemove tn0.key (alPut k s.nextId s.cache)).length : Int)
          have := length_alRemove_of_mem hk0keys1
          rw [hlen1] at this
          omega
        · show s.size + 1 - 1 ≤ s.capacity
          omega
      · rw [if_neg hov]
        refine ⟨_, rfl, ⟨hkeys1, horder1nodup, hperm1, hcons1, hnodes1nodup,
          hb1, hb2, ?_, h9, ?_⟩, rfl, rfl, rfl⟩
        · show s.size + 1 = ((alPut k s.nextId s.cache).length : Int)
          rw [hlen1]
          push_cast
          omega
        · show s.size + 1 ≤ s.capacity
          omega

theorem lruRunSets_good (calls : List (Nat × K × V × Option (Option Nat)))
    {s : LRUState K V} (hI : LRUInv s) :
    ∃ s', lruRunSets calls s = some s' ∧ LRUInv s' ∧ s'.capacity = s.capacity := by
  induction calls generalizing s with
  | nil => exact ⟨s, rfl, hI, rfl⟩
  | cons c rest ih =>
      obtain ⟨s1, hs1, hI1, hcap1, _, _⟩ := lruSet_inv hI c.1 c.2.1 c.2.2.1 c.2.2.2
      obtain ⟨s', hs', hI', hcap'⟩ := ih hI1
      refine ⟨s', ?_, hI', by rw [hcap', hcap1]⟩
      rw [lruRunSets, hs1]
      exact hs'

theorem lruApplyOp_inv {s : LRUState K V} (hI : LRUInv s) (o : CacheOp K V)
    {s' : LRUState K V} (h : lruApplyOp o s = some s') : LRUInv s' := by
  cases o with
  | doSet now k v mA =>
      obtain ⟨s1, hs1, hI1, _, _, _⟩ := lruSet_inv hI now k v mA
      simp only [lruApplyOp] at h
      rw [hs1] at h
      cases h
      exact hI1
  | doGet now k =>
      simp only [lruApplyOp] at h
      cases h
      exact lruGet_inv hI now k
  | doPeek now k =>
      simp only [lruApplyOp] at h
      cases h
      rw [lruPeek_eq_get]
      exact lruGet_inv hI now k
  | doDelete k =>
      simp only [lruApplyOp] at h
      cases h
      exact lruDelete_inv hI k
  | doClear =>
      simp only [lruApplyOp] at h
      cases h
      exact lruClear_inv hI

theorem lruRunOps_inv (ops : List (CacheOp K V)) {s : LRUState K V}
    (hI : LRUInv s) {s' : LRUState K V} (h : lruRunOps ops s = some s') :
    LRUInv s' := by
  induction ops generalizing s with
  | nil =>
      rw [lruRunOps] at h
      cases h
      exact hI
  | cons o rest ih =>
      rw [lruRunOps] at h
      cases ho : lruApplyOp o s with
      | none => rw [ho] at h; simp at h
      | some s1 =>
          rw [ho] at h
          exact ih (lruApplyOp_inv hI o ho) h

end LRUInvariant

/-! ## Claims -/

/-- Claim C6: for both caches and for every key and state, `peek(key)` is
observably identical to `get(key)`: it returns the same optional result and
performs the same state mutation (expiry purge on expired entries, recency
move-to-head in LRU, frequency bump in LFU). -/
theorem C6_peek_eq_get :
    (∀ (K V : Type) [DecidableEq K] (now : Nat) (k : K) (s : LRUState K V),
      lruPeek now k s = lruGet now k s) ∧
    (∀ (K V : Type) [DecidableEq K] (now : Nat) (k : K) (s : LFUState K V),
      lfuPeek now k s = lfuGet now k s) := by
  constructor
  · intro K V _ now k s
    unfold lruPeek lruGet
    rfl
  · intro K V _ now k s
    unfold lfuPeek lfuGet
    rfl

/-- Witness for C6 at a concrete cache state. -/
theorem C6_peek_eq_get_witness :
    lruPeek 3 0 (lruFresh Nat Nat 2 none false) =
      lruGet 3 0 (lruFresh Nat Nat 2 none false) ∧
    lfuPeek 3 0 (lfuFresh Nat Nat 2 none false) =
      lfuGet 3 0 (lfuFresh Nat Nat 2 none false) :=
  ⟨C6_peek_eq_get.1 Nat Nat 3 0 _, C6_peek_eq_get.2 Nat Nat 3 0 _⟩

/-- Claim C9: for both caches, an entry whose absolute expiry is `≤ now`
still occupies a capacity slot and counts toward `size` until touched; a
`get` on it then deletes it, decrements `size`, and returns the absent
variant.  Concretely, after `set(a,1,{maxAge:1000})` at time 0 the entry
still counts at time 1500, and `get(a)` at time 1500 is absent and removes
it from `size`. -/
theorem C9_lazy_expiry :
    (∀ (K V : Type) [DecidableEq K] (s : LRUState K V), LRUInv s →
      ∀ (now : Nat) (k : K) (i : Nat) (d : LRUNodeData K V) (e : Nat),
        alGet k s.cache = some i → alGet i s.nodes = some d →
        d.expiry = some e → e ≤ now →
        lruGet now k s = (none, (lruDelete k s).2) ∧
        (lruGet now k s).2.size = s.size - 1 ∧
        alGet k (lruGet now k s).2.cache = none) ∧
    (∀ (K V : Type) [DecidableEq K] (s : LFUState K V), LFUInv s →
      ∀ (now : Nat) (k : K) (nd : LFUNodeData K V) (e : Nat),
        alGet k s.cache = some nd → nd.expiry = some e → e ≤ now →
        lfuGet now k s = (none, (lfuDelete k s).2) ∧
        (lfuGet now k s).2.size = s.size - 1 ∧
        alGet k (lfuGet now k s).2.cache = none) ∧
    ((lruSet 0 0 1 (some (some 1000)) (lruFresh Nat Nat 3 none false)).map
        (fun s => (s.size, lruHas 0 s, (lruGet 1500 0 s).1,
          (lruGet 1500 0 s).2.size, lruHas 0 (lruGet 1500 0 s).2)) =
      some (1, true, none, 0, false)) ∧
    ((fun s => (s.size, lfuHas 0 s, (lfuGet 1500 0 s).1,
        (lfuGet 1500 0 s).2.size, lfuHas 0 (lfuGet 1500 0 s).2))
        (lfuSet 0 0 1 (some (some 1000)) (lfuFresh Nat Nat 3 none false)) =
      (1, true, none, 0, false)) := by
  refine ⟨?_, ?_, by decide, by decide⟩
  · intro K V _ s hI now k i d e hk hd hde he
    have hexp : isExpired now d.expiry = true := by
      rw [hde]
      simp only [isExpired, Option.getD_some, decide_eq_true_eq]
      exact he
    have heq : lruGet now k s = (none, (lruDelete k s).2) := by
      simp only [lruGet, hk, hd, lruGetOrDeleteIfExpired, lruDeleteIfExpired,
        hexp, if_true]
    refine ⟨heq, ?_, ?_⟩
    · rw [heq]
      show (lruDelete k s).2.size = s.size - 1
      simp only [lruDelete, hk]
    · rw [heq]
      show alGet k (lruDelete k s).2.cache = none
      simp only [lruDelete, hk]
      exact alGet_alRemove_self hI.1
  · intro K V _ s hI now k nd e hk hde he
    have hexp : isExpired now nd.expiry = true := by
      rw [hde]
      simp only [isExpired, Option.getD_some, decide_eq_true_eq]
      exact he
    have heq : lfuGet now k s = (none, (lfuDelete k s).2) := by
      simp only [lfuGet, hk, lfuGetOrDeleteIfExpired, hexp, if_true]
    refine ⟨heq, ?_, ?_⟩
    · rw [heq]
      show (lfuDelete k s).2.size = s.size - 1
      simp only [lfuDelete, hk]
    · rw [heq]
      show alGet k (lfuDelete k s).2.cache = none
      simp only [lfuDelete, hk]
      exact alGet_alRemove_self hI.1.1

/-- Witness for C9 at a concrete expired entry. -/
theorem C9_lazy_expiry_witness :
    lruGet 50 0 (LRUState.mk 3 [(0, ⟨0, 1, some 10⟩)] [(0, 0)] [0] 1 1 none
        false ([] : List (Nat × Nat))) =
      (none, (lruDelete 0 (LRUState.mk 3 [(0, ⟨0, 1, some 10⟩)] [(0, 0)] [0] 1 1
        none false ([] : List (Nat × Nat)))).2) ∧
    (lruGet 50 0 (LRUState.mk 3 [(0, ⟨0, 1, some 10⟩)] [(0, 0)] [0] 1 1 none
        false ([] : List (Nat × Nat)))).2.size =
      (LRUState.mk 3 [(0, ⟨0, 1, some 10⟩)] [(0, 0)] [0] 1 1 none
        false ([] : List (Nat × Nat))).size - 1 ∧
    alGet 0 (lruGet 50 0 (LRUState.mk 3 [(0, ⟨0, 1, some 10⟩)] [(0, 0)] [0] 1 1
        none false ([] : List (Nat × Nat)))).2.cache = none :=
  C9_lazy_expiry.1 Nat Nat
    (LRUState.mk 3 [(0, ⟨0, 1, some 10⟩)] [(0, 0)] [0] 1 1 none false
      ([] : List (Nat × Nat)))
    (by decide) 50 0 0 ⟨0, 1, some 10⟩ 10 (by decide) (by decide) rfl (by decide)

/-- Claim C10: `maxAge: 0` means opposite things at the two interfaces.  As a
construction option it is falsy and replaced by positive infinity (`none`),
so entries never expire (for any clock value below `MAX_SAFE_INTEGER`);
as a per-call option `set(k, v, {maxAge: 0})` stores the absolute expiry
`now + 0`, so the entry is already expired at its next access. -/
theorem C10_maxage_zero :
    (∀ (K V : Type) (C : Int) (b : Bool),
      (lruFresh K V C (some 0) b).maxAge = none ∧
      (lfuFresh K V C (some 0) b).maxAge = none) ∧
    ((lruSet 5 0 7 none (lruFresh Nat Nat 3 (some 0) false)).map
        (fun s => (alGet 0 s.cache).bind (fun i => (alGet i s.nodes).map
          (fun d => d.expiry))) = some (some none)) ∧
    (∀ t : Nat, t < maxSafeInteger →
      (lruSet 5 0 7 none (lruFresh Nat Nat 3 (some 0) false)).map
        (fun s => (lruGet t 0 s).1) = some (some 7)) ∧
    ((lruSet 100 0 7 (some (some 0)) (lruFresh Nat Nat 3 none false)).map
        (fun s => ((alGet 0 s.cache).bind (fun i => (alGet i s.nodes).map
          (fun d => d.expiry)), (lruGet 100 0 s).1, (lruGet 100 0 s).2.size)) =
      some (some (some 100), none, 0)) ∧
    ((fun s => (s.maxAge, (alGet 0 s.cache).map (fun nd => nd.expiry),
        (lfuGet 100 0 s).1, (lfuGet 100 0 s).2.size))
        (lfuSet 100 0 7 (some (some 0)) (lfuFresh Nat Nat 3 (some 0) false)) =
      (none, some (some 100), none, 0)) := by
  refine ⟨fun K V C b => ⟨rfl, rfl⟩, by decide, ?_, by decide, by decide⟩
  intro t ht
  have h0 : lruSet 5 0 7 none (lruFresh Nat Nat 3 (some 0) false) =
      some (LRUState.mk 3 [(0, ⟨0, 7, none⟩)] [(0, 0)] [0] 1 1 none false []) :=
    rfl
  rw [h0]
  have hexp : isExpired t (none : Option Nat) = false := by
    simp only [isExpired, Option.getD_none, decide_eq_false_iff_not]
    omega
  show some ((lruGet t 0 (LRUState.mk 3 [(0, ⟨0, 7, none⟩)] [(0, 0)] [0] 1 1 none
    false [])).1) = some (some 7)
  simp [lruGet, alGet, lruGetOrDeleteIfExpired, lruDeleteIfExpired, hexp]

/-- Witness for C10 at the concrete clock value 123. -/
theorem C10_maxage_zero_witness :
    (123 : Nat) < maxSafeInteger ∧
    (lruSet 5 0 7 none (lruFresh Nat Nat 3 (some 0) false)).map
      (fun s => (lruGet 123 0 s).1) = some (some 7) :=
  ⟨by decide, C10_maxage_zero.2.2.1 123 (by decide)⟩

/-- Claim C2: an LRU `set` of a new key on a full cache evicts exactly one
entry, namely the tail (least-recently-touched) node: it is removed from the
index and the list, `size` is decremented back to its old value, and
`onEviction` is logged exactly once with the evicted key and value.
Concretely, with capacity 3: `set(a,1); set(b,2); set(c,3); set(d,4)` makes
`get(a)` absent, `get(b)=2`, `get(c)=3`, `get(d)=4`, with `onEviction`
called exactly once, with `(a,1)`. -/
theorem C2_lru_evicts_tail :
    (∀ (K V : Type) [DecidableEq K] (s : LRUState K V), LRUInv s →
      ∀ (now : Nat) (k : K) (v : V) (mA : Option (Option Nat)),
        alGet k s.cache = none → s.size = s.capacity →
        ∃ t tn s', s.order.getLast? = some t ∧ alGet t s.nodes = some tn ∧
          lruSet now k v mA s = some s' ∧
          s'.size = s.size ∧
          s'.cache.length = s.cache.length ∧
          alGet tn.key s'.cache = none ∧
          t ∉ s'.order ∧
          (s.onEv = true → s'.evLog = s.evLog ++ [(tn.key, tn.value)]) ∧
          (s.onEv = false → s'.evLog = s.evLog)) ∧
    ((lruRunSets [(0, 0, 1, none), (0, 1, 2, none), (0, 2, 3, none),
        (0, 3, 4, none)] (lruFresh Nat Nat 3 none true)).map
      (fun s4 =>
        ((lruGet 0 0 s4).1,
         (lruGet 0 1 (lruGet 0 0 s4).2).1,
         (lruGet 0 2 (lruGet 0 1 (lruGet 0 0 s4).2).2).1,
         (lruGet 0 3 (lruGet 0 2 (lruGet 0 1 (lruGet 0 0 s4).2).2).2).1,
         s4.evLog)) =
      some (none, some 2, some 3, some 4, [(0, 1)])) := by
  refine ⟨?_, by rfl⟩
  intro K V _ s hI now k v mA hk hfull
  obtain ⟨h1, h2, h3, h4, h5, h6, h7, h8, h9, h10⟩ := hI
  have hknm : k ∉ s.cache.map Prod.fst := by
    intro hc
    have := alGet_isSome_of_mem_fst hc
    rw [hk] at this
    exact absurd this (by simp)
  have hfresh_snd : ∀ j ∈ s.cache.map Prod.snd, j < s.nextId := by
    intro j hj
    obtain ⟨q, hq, rfl⟩ := List.mem_map.1 hj
    exact h6 q hq
  have hfresh_o : s.nextId ∉ s.order := by
    intro hc
    have := hfresh_snd _ (h3.mem_iff.1 hc)
    omega
  have hfresh_n : s.nextId ∉ s.nodes.map Prod.fst := by
    intro hc
    obtain ⟨p, hp, hp1⟩ := List.mem_map.1 hc
    have := h7 p hp
    omega
  set nd : LRUNodeData K V := ⟨k, v, mkExpiry now (mA.getD s.maxAge)⟩ with hnd
  have hcache1 : alPut k s.nextId s.cache = s.cache ++ [(k, s.nextId)] :=
    alPut_of_not_mem hknm
  have hkeys1 : ((alPut k s.nextId s.cache).map Prod.fst).Nodup := by
    rw [hcache1]
    simp only [List.map_append, List.map_cons, List.map_nil]
    rw [List.nodup_append]
    refine ⟨h1, List.nodup_singleton _, ?_⟩
    intro x hx hmem
    have hxk : x = k := by simpa using hmem
    exact hknm (hxk ▸ hx)
  have horder1nodup : (s.nextId :: s.order).Nodup :=
    List.nodup_cons.2 ⟨hfresh_o, h2⟩
  have hnodes1get : ∀ j, j ≠ s.nextId →
      alGet j (s.nodes ++ [(s.nextId, nd)]) = alGet j s.nodes := by
    intro j hj
    cases hx : alGet j s.nodes with
    | some d => exact alGet_append_left hx
    | none =>
        rw [alGet_append_none hx, alGet_cons]
        rw [if_neg (by simpa using Ne.symm hj), alGet_nil]
  have hov : s.size + 1 > s.capacity := by omega
  have hlenpos : 1 ≤ s.cache.length := by
    by_contra hle
    have hz : s.cache.length = 0 := by omega
    rw [hz] at h8
    simp only [Nat.cast_zero] at h8
    omega
  obtain ⟨o1, orest, horder⟩ : ∃ o1 orest, s.order = o1 :: orest := by
    cases horder : s.order with
    | nil =>
        have := h3.length_eq
        rw [horder] at this
        simp only [List.length_nil] at this
        rw [List.length_map] at this
        omega
    | cons o1 orest => exact ⟨o1, orest, rfl⟩
  have hone : s.order ≠ [] := by rw [horder]; simp
  set t := s.order.getLast hone with ht
  have hlast0 : s.order.getLast? = some t := List.getLast?_eq_getLast _ hone
  have hlast : (s.nextId :: s.order).getLast? = some t := by
    rw [horder] at hlast0 ⊢
    rw [List.getLast?_cons_cons]
    exact hlast0
  have htmem : t ∈ s.order := ht ▸ List.getLast_mem hone
  obtain ⟨q0, hq0mem, hq0snd⟩ : ∃ q0 ∈ s.cache, q0.2 = t :=
    List.mem_map.1 (h3.mem_iff.1 htmem)
  have hq0pair : (q0.1, t) ∈ s.cache := by
    rw [← hq0snd]
    exact hq0mem
  obtain ⟨tn0, htn0, htn0key⟩ :
      ∃ tn0, alGet t s.nodes = some tn0 ∧ tn0.key = q0.1 := by
    have := h4 _ hq0pair
    cases hx : alGet t s.nodes with
    | none => rw [hx] at this; simp at this
    | some d =>
        rw [hx] at this
        simp only [Option.map_some] at this
        exact ⟨d, rfl, Option.some.inj this⟩
  have htn1 : alGet t (s.nodes ++ [(s.nextId, nd)]) = some tn0 := by
    have hne : t ≠ s.nextId := by
      intro hc
      exact hfresh_o (hc ▸ htmem)
    rw [hnodes1get t hne]
    exact htn0
  set S2 : LRUState K V :=
    { s with nodes := s.nodes ++ [(s.nextId, nd)],
             cache := alRemove tn0.key (alPut k s.nextId s.cache),
             order := (s.nextId :: s.order).dropLast,
             nextId := s.nextId + 1,
             size := s.size + 1 - 1,
             evLog := if s.onEv then s.evLog ++ [(tn0.key, tn0.value)]
                      else s.evLog }
    with hS2
  have hset : lruSet now k v mA s = some S2 := by
    rw [hS2]
    simp only [lruSet, hk]
    rw [← hnd]
    simp only [hlast, htn1]
    have hlen2 : ¬((s.nextId :: s.order).length < 2) := by
      rw [List.length_cons, horder, List.length_cons]
      omega
    rw [if_pos hov, if_neg hlen2]
  refine ⟨t, tn0, S2, hlast0, htn0, hset, ?_, ?_, ?_, ?_, ?_, ?_⟩
  · show s.size + 1 - 1 = s.size
    omega
  · show (alRemove tn0.key (alPut k s.nextId s.cache)).length = s.cache.length
    have hk0mem1 : (tn0.key, t) ∈ alPut k s.nextId s.cache := by
      rw [htn0key]
      apply mem_alPut_of_ne hq0pair
      intro hc
      exact hknm (hc ▸ List.mem_map.2 ⟨(q0.1, t), hq0pair, rfl⟩)
    have hk0keys1 : tn0.key ∈ (alPut k s.nextId s.cache).map Prod.fst :=
      List.mem_map.2 ⟨(tn0.key, t), hk0mem1, rfl⟩
    have hlen1 : (alPut k s.nextId s.cache).length = s.cache.length + 1 := by
      rw [hcache1]
      simp
    have := length_alRemove_of_mem hk0keys1
    omega
  · show alGet tn0.key (alRemove tn0.key (alPut k s.nextId s.cache)) = none
    exact alGet_alRemove_self hkeys1
  · show t ∉ (s.nextId :: s.order).dropLast
    rw [dropLast_eq_erase_of_getLast horder1nodup hlast]
    exact List.Nodup.not_mem_erase horder1nodup
  · intro hev
    show (if s.onEv = true then s.evLog ++ [(tn0.key, tn0.value)] else s.evLog) =
      s.evLog ++ [(tn0.key, tn0.value)]
    rw [if_pos hev]
  · intro hev
    show (if s.onEv = true then s.evLog ++ [(tn0.key, tn0.value)] else s.evLog) =
      s.evLog
    rw [hev]
    simp

/-- Witness for C2 at a concrete full LRU cache of capacity 1. -/
theorem C2_lru_evicts_tail_witness :
    ∃ t tn s',
      (LRUState.mk 1 [(0, ⟨0, 9, none⟩)] [(0, 0)] [0] 1 1 none true
        ([] : List (Nat × Nat))).order.getLast? = some t ∧
      alGet t (LRUState.mk 1 [(0, ⟨0, 9, none⟩)] [(0, 0)] [0] 1 1 none true
        ([] : List (Nat × Nat))).nodes = some tn ∧
      lruSet 7 1 5 none (LRUState.mk 1 [(0, ⟨0, 9, none⟩)] [(0, 0)] [0] 1 1 none
        true ([] : List (Nat × Nat))) = some s' ∧
      s'.size = (LRUState.mk 1 [(0, ⟨0, 9, none⟩)] [(0, 0)] [0] 1 1 none true
        ([] : List (Nat × Nat))).size ∧
      s'.cache.length = (LRUState.mk 1 [(0, ⟨0, 9, none⟩)] [(0, 0)] [0] 1 1 none
        true ([] : List (Nat × Nat))).cache.length ∧
      alGet tn.key s'.cache = none ∧
      t ∉ s'.order ∧
      ((LRUState.mk 1 [(0, ⟨0, 9, none⟩)] [(0, 0)] [0] 1 1 none true
          ([] : List (Nat × Nat))).onEv = true →
        s'.evLog = (LRUState.mk 1 [(0, ⟨0, 9, none⟩)] [(0, 0)] [0] 1 1 none true
          ([] : List (Nat × Nat))).evLog ++ [(tn.key, tn.value)]) ∧
      ((LRUState.mk 1 [(0, ⟨0, 9, none⟩)] [(0, 0)] [0] 1 1 none true
          ([] : List (Nat × Nat))).onEv = false →
        s'.evLog = (LRUState.mk 1 [(0, ⟨0, 9, none⟩)] [(0, 0)] [0] 1 1 none true
          ([] : List (Nat × Nat))).evLog) :=
  C2_lru_evicts_tail.1 Nat Nat
    (LRUState.mk 1 [(0, ⟨0, 9, none⟩)] [(0, 0)] [0] 1 1 none true
      ([] : List (Nat × Nat)))
    (by decide) 7 1 5 none (by decide) (by decide)

/-- Claim C3: LFU eviction removes the first key, in insertion order, of the
bucket at `minFreq` (the longest-resident key among the lowest-frequency
entries), removes it from the index, decrements `size`, and fires
`onEviction` with its key and value.  Concretely, with capacity 3:
`set(a,1); set(b,2); set(c,3); get(a); get(a); get(b); set(d,4)` evicts `c`
while `a`, `b`, `d` remain retrievable. -/
theorem C3_lfu_evicts_min_bucket_head :
    (∀ (K V : Type) [DecidableEq K] (s : LFUState K V) (k0 : K) (rest : List K)
        (nd0 : LFUNodeData K V),
      (s.freqMap.map Prod.fst).Nodup →
      alGet s.minFreq s.freqMap = some (k0 :: rest) →
      alGet k0 s.cache = some nd0 →
      (lfuEvict s).cache = alRemove k0 s.cache ∧
      (lfuEvict s).size = s.size - 1 ∧
      alGet s.minFreq (lfuEvict s).freqMap =
        (if rest.isEmpty then none else some rest) ∧
      (s.onEv = true → (lfuEvict s).evLog = s.evLog ++ [(k0, nd0.value)]) ∧
      (s.onEv = false → (lfuEvict s).evLog = s.evLog)) ∧
    ((fun s => ((lfuGet 0 0 s).1, (lfuGet 0 1 s).1, (lfuGet 0 2 s).1,
        (lfuGet 0 3 s).1, s.evLog))
      (lfuSet 0 3 4 none
        ((lfuGet 0 1 ((lfuGet 0 0 ((lfuGet 0 0
          (lfuSet 0 2 3 none (lfuSet 0 1 2 none (lfuSet 0 0 1 none
            (lfuFresh Nat Nat 3 none true))))).2)).2)).2)) =
      (some 1, some 2, none, some 4, [(2, 3)])) := by
  refine ⟨?_, by decide⟩
  intro K V _ s k0 rest nd0 hfnd hks hnd0
  rw [lfuEvict_eq hks hnd0]
  have hAnodup : ((alAdjust s.minFreq (fun _ => rest) s.freqMap).map Prod.fst).Nodup := by
    rw [map_fst_alAdjust]
    exact hfnd
  refine ⟨rfl, rfl, ?_, ?_, ?_⟩
  · show alGet s.minFreq (if rest.isEmpty then
        alRemove s.minFreq (alAdjust s.minFreq (fun _ => rest) s.freqMap)
      else alAdjust s.minFreq (fun _ => rest) s.freqMap) =
      (if rest.isEmpty then none else some rest)
    split
    · exact alGet_alRemove_self hAnodup
    · rw [alGet_alAdjust_self, hks]
      rfl
  · intro hev
    show (if s.onEv = true then s.evLog ++ [(k0, nd0.value)] else s.evLog) =
      s.evLog ++ [(k0, nd0.value)]
    rw [if_pos hev]
  · intro hev
    show (if s.onEv = true then s.evLog ++ [(k0, nd0.value)] else s.evLog) =
      s.evLog
    rw [hev]
    simp

/-- Witness for C3 at a concrete one-entry LFU cache. -/
theorem C3_lfu_evicts_min_bucket_head_witness :
    (lfuEvict (LFUState.mk 3 [(0, ⟨0, 5, 1, none⟩)] [(1, [0])] 1 1 none true
        ([] : List (Nat × Nat)))).cache =
      alRemove 0 (LFUState.mk 3 [(0, ⟨0, 5, 1, none⟩)] [(1, [0])] 1 1 none true
        ([] : List (Nat × Nat))).cache ∧
    (lfuEvict (LFUState.mk 3 [(0, ⟨0, 5, 1, none⟩)] [(1, [0])] 1 1 none true
        ([] : List (Nat × Nat)))).size =
      (LFUState.mk 3 [(0, ⟨0, 5, 1, none⟩)] [(1, [0])] 1 1 none true
        ([] : List (Nat × Nat))).size - 1 ∧
    alGet (LFUState.mk 3 [(0, ⟨0, 5, 1, none⟩)] [(1, [0])] 1 1 none true
        ([] : List (Nat × Nat))).minFreq
      (lfuEvict (LFUState.mk 3 [(0, ⟨0, 5, 1, none⟩)] [(1, [0])] 1 1 none true
        ([] : List (Nat × Nat)))).freqMap =
      (if ([] : List Nat).isEmpty then none else some []) ∧
    ((LFUState.mk 3 [(0, ⟨0, 5, 1, none⟩)] [(1, [0])] 1 1 none true
        ([] : List (Nat × Nat))).onEv = true →
      (lfuEvict (LFUState.mk 3 [(0, ⟨0, 5, 1, none⟩)] [(1, [0])] 1 1 none true
        ([] : List (Nat × Nat)))).evLog =
        (LFUState.mk 3 [(0, ⟨0, 5, 1, none⟩)] [(1, [0])] 1 1 none true
          ([] : List (Nat × Nat))).evLog ++ [(0, 5)]) ∧
    ((LFUState.mk 3 [(0, ⟨0, 5, 1, none⟩)] [(1, [0])] 1 1 none true
        ([] : List (Nat × Nat))).onEv = false →
      (lfuEvict (LFUState.mk 3 [(0, ⟨0, 5, 1, none⟩)] [(1, [0])] 1 1 none true
        ([] : List (Nat × Nat)))).evLog =
        (LFUState.mk 3 [(0, ⟨0, 5, 1, none⟩)] [(1, [0])] 1 1 none true
          ([] : List (Nat × Nat))).evLog) :=
  C3_lfu_evicts_min_bucket_head.1 Nat Nat
    (LFUState.mk 3 [(0, ⟨0, 5, 1, none⟩)] [(1, [0])] 1 1 none true
      ([] : List (Nat × Nat)))
    0 [] ⟨0, 5, 1, none⟩ (by decide) (by decide) (by decide)

/-- Counterexample to claim C5 as stated: an LRU overwrite `set` does not
recompute the entry's expiry.  After `set(a,1,{maxAge:100})` at time 0 and
`set(a,2,{maxAge:100})` at time 50, the stored expiry is still 100, not
`50 + 100 = 150`, and `get(a)` at time 120 is already absent. -/
theorem C5_counterexample :
    ((lruSet 0 0 1 (some (some 100)) (lruFresh Nat Nat 3 none false)).bind
        (lruSet 50 0 2 (some (some 100)))).map
      (fun s => ((alGet 0 s.cache).bind
        (fun i => (alGet i s.nodes).map (fun d => (d.value, d.expiry))),
        (lruGet 120 0 s).1)) =
      some (some (2, some 100), none) ∧
    (some 100 : Option Nat) ≠ some (50 + 100) := by
  exact ⟨by decide, by decide⟩

/-- Claim C5, amended: an LRU overwrite `set` replaces the entry's value and
moves the entry to the head of the recency list, but leaves the stored
expiry (and key) unchanged — unlike the LFU overwrite, it does not
recompute the expiry. -/
theorem C5_overwrite_amended :
    ∀ (K V : Type) [DecidableEq K] (s : LRUState K V) (now : Nat) (k : K)
      (v : V) (mA : Option (Option Nat)) (i : Nat) (d : LRUNodeData K V),
      alGet k s.cache = some i → alGet i s.nodes = some d →
      ∃ s', lruSet now k v mA s = some s' ∧
        alGet i s'.nodes = some ⟨d.key, v, d.expiry⟩ ∧
        s'.cache = s.cache ∧
        s'.size = s.size ∧
        s'.order.head? = some i ∧
        s'.evLog = s.evLog := by
  intro K V _ s now k v mA i d hk hd
  rw [lruSet_eq_overwrite hk]
  set s1 : LRUState K V :=
    { s with nodes := alAdjust i (fun nd => { nd with value := v }) s.nodes }
    with hs1
  obtain ⟨hf1, hf2, hf3, hf4, hf5, hf6, hf7, hf8⟩ := lruMoveToHead_fields i s1
  refine ⟨lruMoveToHead i s1, rfl, ?_, ?_, ?_, ?_, ?_⟩
  · rw [hf2]
    show alGet i (alAdjust i (fun nd => { nd with value := v }) s.nodes) =
      some ⟨d.key, v, d.expiry⟩
    rw [alGet_alAdjust_self, hd]
    rfl
  · rw [hf1]
  · rw [hf3]
  · unfold lruMoveToHead
    split
    · rename_i h
      exact h
    · rfl
  · rw [hf8]

/-- Witness for the amended C5 at a concrete two-entry cache. -/
theorem C5_overwrite_amended_witness :
    ∃ s', lruSet 50 0 2 (some (some 100))
        (LRUState.mk 3 [(0, ⟨0, 1, some 100⟩), (1, ⟨1, 6, none⟩)]
          [(0, 0), (1, 1)] [1, 0] 2 2 none false ([] : List (Nat × Nat))) =
        some s' ∧
      alGet 0 s'.nodes = some ⟨0, 2, some 100⟩ ∧
      s'.cache = (LRUState.mk 3 [(0, ⟨0, 1, some 100⟩), (1, ⟨1, 6, none⟩)]
          [(0, 0), (1, 1)] [1, 0] 2 2 none false
          ([] : List (Nat × Nat))).cache ∧
      s'.size = (LRUState.mk 3 [(0, ⟨0, 1, some 100⟩), (1, ⟨1, 6, none⟩)]
          [(0, 0), (1, 1)] [1, 0] 2 2 none false
          ([] : List (Nat × Nat))).size ∧
      s'.order.head? = some 0 ∧
      s'.evLog = (LRUState.mk 3 [(0, ⟨0, 1, some 100⟩), (1, ⟨1, 6, none⟩)]
          [(0, 0), (1, 1)] [1, 0] 2 2 none false
          ([] : List (Nat × Nat))).evLog :=
  C5_overwrite_amended Nat Nat
    (LRUState.mk 3 [(0, ⟨0, 1, some 100⟩), (1, ⟨1, 6, none⟩)]
      [(0, 0), (1, 1)] [1, 0] 2 2 none false ([] : List (Nat × Nat)))
    50 0 2 (some (some 100)) 0 ⟨0, 1, some 100⟩ (by decide) (by decide)

/-- Counterexample to claim C4 as stated: `minFreq` is not `0` on an empty
cache and is not the least non-empty bucket frequency at every observable
point.  After `set(a,1)` then `delete(a)`, the cache is empty but `minFreq`
is 2 (delete blindly increments it). -/
theorem C4_counterexample :
    (fun s => (s.cache, s.freqMap, s.size, s.minFreq))
      ((lfuDelete 0 (lfuSet 0 0 1 none (lfuFresh Nat Nat 2 none false))).2) =
      ([], [], 0, 2) ∧ (2 : Nat) ≠ 0 := by
  exact ⟨by rfl, by decide⟩

/-- Claim C4, amended: the `minFreq`/bucket invariant (every indexed key in
exactly one bucket, the one of its frequency; `minFreq` the least non-empty
bucket frequency, `0` on an empty cache) holds on every state satisfying
`LFUInv`, and `LFUInv` is established by the constructor and preserved by
`set`, `clear`, and by `get`/`peek` on an absent or non-expired key — but
not by `delete` (including the lazy-expiry delete inside `get`/`peek`),
which can leave `minFreq` above the true minimum and non-zero on an empty
cache. -/
theorem C4_minfreq_amended :
    (∀ (K V : Type) [DecidableEq K] (s : LFUState K V), LFUInv s →
      (s.cache = [] → s.minFreq = 0) ∧
      (s.cache ≠ [] → ∃ ks, alGet s.minFreq s.freqMap = some ks ∧ ks ≠ []) ∧
      (∀ p ∈ s.freqMap, s.minFreq ≤ p.1 ∧ p.2 ≠ []) ∧
      (∀ q ∈ s.cache, ∃ ks, alGet q.2.freq s.freqMap = some ks ∧ q.1 ∈ ks) ∧
      (∀ q ∈ s.cache, ∀ p ∈ s.freqMap, q.1 ∈ p.2 → p.1 = q.2.freq)) ∧
    (∀ (K V : Type) [DecidableEq K] (C : Int) (mA : Option Nat) (b : Bool),
      LFUInv (lfuFresh K V C mA b)) ∧
    (∀ (K V : Type) [DecidableEq K] (s : LFUState K V), LFUInv s →
      0 < s.capacity → ∀ (now : Nat) (k : K) (v : V) (mA : Option (Option Nat)),
      LFUInv (lfuSet now k v mA s)) ∧
    (∀ (K V : Type) [DecidableEq K] (s : LFUState K V), LFUInv s →
      LFUInv (lfuClear s)) ∧
    (∀ (K V : Type) [DecidableEq K] (s : LFUState K V), LFUInv s →
      ∀ (now : Nat) (k : K),
      (∀ nd, alGet k s.cache = some nd → isExpired now nd.expiry = false) →
      LFUInv (lfuGet now k s).2 ∧ LFUInv (lfuPeek now k s).2) := by
  refine ⟨?_, ?_, ?_, ?_, ?_⟩
  · intro K V _ s hI
    obtain ⟨⟨hKND, hSZ, hFND, hBP, hBC, hCB⟩, hLB, hE0, hNE⟩ := hI
    refine ⟨hE0, ?_, ?_, ?_, ?_⟩
    · intro hne
      have hs := hNE hne
      cases hx : alGet s.minFreq s.freqMap with
      | none => rw [hx] at hs; simp at hs
      | some ks => exact ⟨ks, rfl, (hBP _ (alGet_some_mem hx)).1⟩
    · intro p hp
      exact ⟨hLB p hp, (hBP p hp).1⟩
    · intro q hq
      have := hCB q hq
      cases hx : alGet q.2.freq s.freqMap with
      | none => rw [hx] at this; simp at this
      | some ks =>
          rw [hx] at this
          exact ⟨ks, rfl, this⟩
    · intro q hq p hp hqin
      have h1 := hBC p hp q.1 hqin
      have h2 : alGet q.1 s.cache = some q.2 := alGet_eq_of_mem hKND hq
      rw [h2] at h1
      have h3 : q.2.freq = p.1 := Option.some.inj h1
      exact h3.symm
  · intro K V _ C mA b
    exact lfuFresh_inv C mA b
  · intro K V _ s hI hcap now k v mA
    exact (lfuSet_inv hI hcap now k v mA).1
  · intro K V _ s _
    exact lfuClear_inv s
  · intro K V _ s hI now k hfresh
    have hpg : lfuPeek now k s = lfuGet now k s := by
      unfold lfuPeek lfuGet
      rfl
    exact ⟨lfuGet_inv hI now k hfresh, by rw [hpg]; exact lfuGet_inv hI now k hfresh⟩

/-- Witness for the amended C4 on a concrete LFU state. -/
theorem C4_minfreq_amended_witness :
    LFUInv (lfuSet 0 0 1 none (lfuFresh Nat Nat 2 none false)) ∧
    ((lfuSet 0 0 1 none (lfuFresh Nat Nat 2 none false)).cache ≠ [] →
      ∃ ks, alGet (lfuSet 0 0 1 none (lfuFresh Nat Nat 2 none false)).minFreq
        (lfuSet 0 0 1 none (lfuFresh Nat Nat 2 none false)).freqMap = some ks ∧
        ks ≠ []) :=
  ⟨(C4_minfreq_amended.2.2.1 Nat Nat (lfuFresh Nat Nat 2 none false)
      (C4_minfreq_amended.2.1 Nat Nat 2 none false) (by decide) 0 0 1 none),
   (C4_minfreq_amended.1 Nat Nat _
      (C4_minfreq_amended.2.2.1 Nat Nat (lfuFresh Nat Nat 2 none false)
        (C4_minfreq_amended.2.1 Nat Nat 2 none false) (by decide) 0 0 1
        none)).2.1⟩

/-- Counterexample to claim C7 as stated: `resize` rebuilds the key index
but not the linked list, so after `set(a); set(b); set(c); resize(2)` on a
capacity-3 LRU cache the list still holds 3 nodes while the index holds 2 —
the list is no longer a permutation of the index. -/
theorem C7_counterexample :
    ((lruRunSets [(0, 0, 1, none), (0, 1, 2, none), (0, 2, 3, none)]
        (lruFresh Nat Nat 3 none false)).bind (lruResize 0 2)).map
      (fun s => (s.order.length, s.cache.length, s.size,
        decide (s.order.Perm (s.cache.map Prod.snd)))) =
      some (3, 2, 2, false) := by
  rfl

/-- Claim C7, amended: after any sequence of `set`/`get`/`peek`/`delete`/
`clear` operations from a fresh cache, the recency list is a duplicate-free
permutation of the node ids held by the index and the index count equals
`size`; `resize` still leaves the index count equal to `size`, but does not
rebuild the list, which may retain evicted nodes. -/
theorem C7_list_index_amended :
    (∀ (K V : Type) [DecidableEq K] (C : Int), 0 < C →
      ∀ (mA : Option Nat) (b : Bool) (ops : List (CacheOp K V))
        (s' : LRUState K V),
      lruRunOps ops (lruFresh K V C mA b) = some s' →
      s'.order.Perm (s'.cache.map Prod.snd) ∧ s'.order.Nodup ∧
        (s'.cache.length : Int) = s'.size) ∧
    (∀ (K V : Type) [DecidableEq K] (now : Nat) (ns : Int)
        (s s' : LRUState K V),
      lruResize now ns s = some s' → (s'.cache.length : Int) = s'.size) := by
  constructor
  · intro K V _ C hC mA b ops s' h
    have hI' := lruRunOps_inv ops (lruFresh_inv C hC mA b) h
    exact ⟨hI'.2.2.1, hI'.2.1, hI'.2.2.2.2.2.2.2.1.symm⟩
  · intro K V _ now ns s s' h
    simp only [lruResize] at h
    split at h
    · exact absurd h (by simp)
    · split at h
      · rename_i hpos
        cases h
        have hd : ∀ (l : List (K × Nat)) (n : Nat), (l.drop n).length = l.length - n :=
          fun l n => List.length_drop n l
        show (((lruEntriesAscInternal now s).1.drop
          ((((lruEntriesAscInternal now s).1.length : Int) - ns).toNat)).length : Int) = ns
        rw [hd]
        omega
      · rename_i hpos
        cases h
        show (((lruEntriesAscInternal now s).1.length : Int)) =
          ((lruEntriesAscInternal now s).1.length : Int)
        rfl

/-- Witness for the amended C7 on a concrete operation sequence. -/
theorem C7_list_index_amended_witness :
    ∃ s', lruRunOps [CacheOp.doSet 0 0 1 none, CacheOp.doGet 0 0,
        CacheOp.doSet 0 1 2 none, CacheOp.doDelete 0]
      (lruFresh Nat Nat 2 none false) = some s' ∧
      (s'.order.Perm (s'.cache.map Prod.snd) ∧ s'.order.Nodup ∧
        (s'.cache.length : Int) = s'.size) := by
  refine ⟨(lruRunOps [CacheOp.doSet 0 0 1 none, CacheOp.doGet 0 0,
      CacheOp.doSet 0 1 2 none, CacheOp.doDelete 0]
      (lruFresh Nat Nat 2 none false)).getD (lruFresh Nat Nat 2 none false),
    by rfl, ?_⟩
  exact C7_list_index_amended.1 Nat Nat 2 (by decide) none false
    [CacheOp.doSet 0 0 1 none, CacheOp.doGet 0 0, CacheOp.doSet 0 1 2 none,
      CacheOp.doDelete 0] _ (by rfl)

theorem lruEntriesAscGo_capacity {K V : Type} [DecidableEq K] (now : Nat) :
    ∀ (l : List (K × Nat)) (s : LRUState K V),
      (lruEntriesAscGo now l s).2.capacity = s.capacity
  | [], _ => rfl
  | (k, i) :: rest, s => by
      rw [lruEntriesAscGo]
      split
      · rw [lruEntriesAscGo_capacity now rest _]
        exact (lruDelete_fields k s).1
      · show (lruEntriesAscGo now rest s).2.capacity = s.capacity
        exact lruEntriesAscGo_capacity now rest s

theorem lfuDelete_capacity {K V : Type} [DecidableEq K] (k : K)
    (s : LFUState K V) : (lfuDelete k s).2.capacity = s.capacity := by
  unfold lfuDelete
  cases alGet k s.cache <;> rfl

theorem lfuEntriesAscGo_capacity {K V : Type} [DecidableEq K] (now : Nat) :
    ∀ (l : List (K × LFUNodeData K V)) (s : LFUState K V),
      (lfuEntriesAscGo now l s).2.capacity = s.capacity
  | [], _ => rfl
  | (k, nd) :: rest, s => by
      rw [lfuEntriesAscGo]
      split
      · rw [lfuEntriesAscGo_capacity now rest _]
        exact lfuDelete_capacity k s
      · show (lfuEntriesAscGo now rest s).2.capacity = s.capacity
        exact lfuEntriesAscGo_capacity now rest s

/-- Counterexample to claim C8 as stated: `resize` never updates the
capacity bound.  After `resize(1)` on a fresh capacity-3 LRU cache,
`maxSizeValue` is still 3 and two subsequent `set` calls reach `size = 2`
with no eviction (the claim predicts eviction against the new bound 1). -/
theorem C8_counterexample :
    ((lruResize 0 1 (lruFresh Nat Nat 3 none true)).bind
        (lruRunSets [(0, 0, 1, none), (0, 1, 2, none)])).map
      (fun s => (lruMaxSizeValue s, s.size, s.evLog, (lruGet 0 0 s).1)) =
      some (3, 2, [], some 1) ∧ (3 : Int) ≠ 1 := by
  exact ⟨by rfl, by decide⟩

/-- Claim C8, amended: the capacity bound (`maxSizeValue`, the value used to
decide capacity-triggered eviction) is fixed at construction and never
changed — `resize` only trims entries and sets `size`, leaving the bound
and hence all subsequent eviction decisions at the original capacity, for
both caches. -/
theorem C8_capacity_amended :
    (∀ (K V : Type) [DecidableEq K] (now : Nat) (ns : Int)
        (s s' : LRUState K V), lruResize now ns s = some s' →
      s'.capacity = s.capacity ∧ lruMaxSizeValue s' = lruMaxSizeValue s) ∧
    (∀ (K V : Type) [DecidableEq K] (now : Nat) (ns : Int)
        (s s' : LFUState K V), lfuResize now ns s = some s' →
      s'.capacity = s.capacity ∧ lfuMaxSizeValue s' = lfuMaxSizeValue s) ∧
    (∀ (K V : Type) (C : Int) (mA : Option Nat) (b : Bool),
      lruMaxSizeValue (lruFresh K V C mA b) = C ∧
      lfuMaxSizeValue (lfuFresh K V C mA b) = C) := by
  refine ⟨?_, ?_, fun K V C mA b => ⟨rfl, rfl⟩⟩
  · intro K V _ now ns s s' h
    simp only [lruResize] at h
    split at h
    · exact absurd h (by simp)
    · have hbase : (lruEntriesAscInternal now s).2.capacity = s.capacity :=
        lruEntriesAscGo_capacity now s.cache s
      split at h
      · cases h
        exact ⟨hbase, hbase⟩
      · cases h
        exact ⟨hbase, hbase⟩
  · intro K V _ now ns s s' h
    simp only [lfuResize] at h
    split at h
    · exact absurd h (by simp)
    · have hbase : (lfuEntriesAscInternal now s).2.capacity = s.capacity :=
        lfuEntriesAscGo_capacity now s.cache s
      split at h
      · cases h
        exact ⟨hbase, hbase⟩
      · cases h
        exact ⟨hbase, hbase⟩

/-- Witness for the amended C8 on a concrete resize. -/
theorem C8_capacity_amended_witness :
    ∃ s', lruResize 0 2 (lruFresh Nat Nat 3 none false) = some s' ∧
      s'.capacity = (lruFresh Nat Nat 3 none false).capacity ∧
      lruMaxSizeValue s' = lruMaxSizeValue (lruFresh Nat Nat 3 none false) := by
  refine ⟨(lruResize 0 2 (lruFresh Nat Nat 3 none false)).getD
    (lruFresh Nat Nat 3 none false), by rfl, ?_⟩
  exact C8_capacity_amended.1 Nat Nat 0 2 (lruFresh Nat Nat 3 none false) _
    (by rfl)

/-- Claim C1: for every cache (LRU or LFU) constructed with capacity `C > 0`
and every finite sequence of `set` calls applied from the fresh state, no
call throws and `size ≤ C` holds after each call returns (every prefix of a
sequence is itself a sequence, so the bound after each call follows). -/
theorem C1_size_le_capacity :
    ∀ (K V : Type) [DecidableEq K] (C : Int), 0 < C →
      ∀ (mA : Option Nat) (b : Bool)
        (calls : List (Nat × K × V × Option (Option Nat))),
      (∃ s', lruRunSets calls (lruFresh K V C mA b) = some s' ∧ s'.size ≤ C) ∧
      (lfuRunSets calls (lfuFresh K V C mA b)).size ≤ C := by
  intro K V _ C hC mA b calls
  constructor
  · obtain ⟨s', hs', hI', hcap'⟩ :=
      lruRunSets_good calls (lruFresh_inv C hC mA b)
    refine ⟨s', hs', ?_⟩
    have hle := hI'.2.2.2.2.2.2.2.2.2
    have hcc : s'.capacity = C := hcap'
    rw [hcc] at hle
    exact hle
  · have h := lfuRunSets_good calls (lfuFresh_inv C mA b)
      (show (0 : Int) < C from hC) (show (0 : Int) ≤ C from le_of_lt hC)
    exact h.2.2

/-- Witness for C1 on a concrete overflowing call sequence. -/
theorem C1_size_le_capacity_witness :
    (∃ s', lruRunSets [(0, 0, 1, none), (0, 1, 2, none), (0, 2, 3, none)]
        (lruFresh Nat Nat 2 none true) = some s' ∧ s'.size ≤ 2) ∧
    (lfuRunSets [(0, 0, 1, none), (0, 1, 2, none), (0, 2, 3, none)]
        (lfuFresh Nat Nat 2 none true)).size ≤ 2 :=
  C1_size_le_capacity Nat Nat 2 (by decide) none true
    [(0, 0, 1, none), (0, 1, 2, none), (0, 2, 3, none)]

end CacheSpec
